import Mathlib

/-
Verification of the membership-query core of freeipa-manager
(ipamanager/tools/query_tool.py), shallowly embedded in Lean 4.

The embedding models:
  - entity references as (type, name) string pairs (Python keys entity
    dictionaries by the entity objects, one object per (type, name));
  - the entity store as an association list from reference to record,
    where a record carries the memberOf mapping (target type to ordered
    list of target names), mirroring entity.data_repo.get('memberOf', {});
  - the QueryTool session state (self.graph, self.predecessors,
    self.paths, plus self.entities and an explicit log trace);
  - QueryTool.build_graph, QueryTool._construct_path,
    QueryTool.check_membership, QueryTool._resolve_entities and
    QueryTool._query_membership, with recursion and the while loop made
    total by an explicit fuel parameter (the Python recursion is
    unbounded, and on cyclic inputs does not terminate).

Python sets are modelled as duplicate-free-by-construction lists with
membership-based insertion (setAdd / setUnion); Python dicts as
association lists with replace-or-append assignment.  Dictionary
iteration order of the memberOf mapping is modelled by the list order of
the record.
-/

namespace FreeipaQuery

/-- An entity reference: the (type, name) identity under which an entity
is keyed in the configuration dictionary. -/
structure Ref where
  rtype : String
  rname : String
deriving DecidableEq, Repr

/-- The part of an entity record the query core reads:
its memberOf relation, a mapping from target type to an ordered
sequence of target names (entity.data_repo.get('memberOf', {})). -/
structure Record where
  memberOf : List (String × List String)
deriving DecidableEq, Repr

/-- The entity store: self.entities, a mapping from (type, name) to the
entity record. -/
abbrev Store := List (Ref × Record)

/-- Association-list lookup (Python dict lookup). -/
def alookup {α β : Type} [DecidableEq α] : List (α × β) → α → Option β
  | [], _ => none
  | (k, v) :: rest, a => if k = a then some v else alookup rest a

/-- Association-list assignment (Python dict item assignment):
replace the binding if the key is present, else append it. -/
def ainsert {α β : Type} [DecidableEq α] : List (α × β) → α → β → List (α × β)
  | [], a, b => [(a, b)]
  | (k, v) :: rest, a, b =>
    if k = a then (a, b) :: rest else (k, v) :: ainsert rest a b

/-- find_entity (ipamanager/utils.py):
entity_dict.get(entity_type, {}).get(name).  Returns the reference of
the stored entity when present, none otherwise. -/
def find_entity (ed : Store) (etype ename : String) : Option Ref :=
  match alookup ed ⟨etype, ename⟩ with
  | some _ => some ⟨etype, ename⟩
  | none => none

/-- The memberOf relation of an entity as stored
(entity.data_repo.get('memberOf', {})); empty for an entity that is not
in the store (build_graph is only invoked on stored entities). -/
def memberOfData (ed : Store) (e : Ref) : List (String × List String) :=
  match alookup ed e with
  | some r => r.memberOf
  | none => []

/-- The declared member-of edges of an entity, flattened in iteration
order: the (target_type, target) pairs visited by the nested
`for target_type, targets in memberof.iteritems(): for target in targets`
loops of build_graph. -/
def targetsOf (ed : Store) (e : Ref) : List (String × String) :=
  (memberOfData ed e).flatMap fun p => p.2.map fun n => (p.1, n)

/-- Python set insertion, on a list representing a set:
no-op when the element is already present. -/
def setAdd (s : List Ref) (x : Ref) : List Ref :=
  if x ∈ s then s else s ++ [x]

/-- Python set union update (result.update(other)). -/
def setUnion (s other : List Ref) : List Ref :=
  other.foldl setAdd s

/-- A path as manipulated by _construct_path: a nonempty sequence of
references, kept as (head, tail) so that current[0] is total. -/
abbrev QPath := Ref × List Ref

/-- The underlying reference list of a path. -/
def QPath.toList (p : QPath) : List Ref := p.1 :: p.2

/-- The log messages the query core emits (self.lg calls), abstracted to
their identity; used to reason about which side-effects a call
re-emits. -/
inductive LogEvent where
  /-- debug 'Membership for %s already calculated' (memo hit). -/
  | memoHit (e : Ref)
  /-- debug 'Calculating membership graph for %s'. -/
  | calculating (e : Ref)
  /-- debug 'Found %d target entities for %s'. -/
  | found (e : Ref) (n : Nat)
  /-- debug 'Using cached paths for %s -> %s'. -/
  | cachedPaths (member target : Ref)
  /-- debug 'Found %d paths %s -> %s'. -/
  | foundPaths (member target : Ref) (n : Nat)
  /-- info '%s IS a member of %s; possible paths: ...'. -/
  | isMember (member target : Ref) (paths : List QPath)
  /-- info '%s IS NOT a member of %s'. -/
  | isNotMember (member target : Ref)
deriving DecidableEq, Repr

/-- The session state of a QueryTool instance: the loaded entity store
and the three session-scoped structures self.graph, self.predecessors
and self.paths, plus the emitted log trace. -/
structure QState where
  entities : Store
  graph : List (Ref × List Ref)
  predecessors : List (Ref × List Ref)
  paths : List ((Ref × Ref) × List QPath)
  trace : List LogEvent
deriving DecidableEq, Repr

/-- The state of a fresh session over a loaded store: graph,
predecessors and paths start empty (QueryTool.__init__). -/
def initState (ed : Store) : QState :=
  { entities := ed, graph := [], predecessors := [], paths := [], trace := [] }

/-- Error outcomes of the embedded operations. -/
inductive QueryError where
  /-- ManagerError('%s %s not found in config'), raised by
  _resolve_entities for an unresolvable query input reference. -/
  | managerNotFound (etype ename : String)
  /-- The AttributeError that a dangling member-of reference produces:
  find_entity returns None, which build_graph recurses into, failing on
  None.data_repo. -/
  | attributeNone
  /-- The DanglingReferenceError of the specification's error taxonomy.
  The source never signals it; the constructor exists so that the
  specified behaviour can be stated and compared with the code's. -/
  | danglingReference (etype ename : String)
deriving DecidableEq, Repr

/-- Outcome of a fueled stateful operation: normal return, a raised
error (carrying the object state at the raise; the exception propagates
out of the session), or fuel exhaustion (the Python recursion or loop
has not returned within the given bound). -/
inductive QRes (α : Type) where
  | ok (st : QState) (val : α)
  | err (e : QueryError) (st : QState)
  | fuelOut
deriving DecidableEq, Repr

/-- self.graph.get(entity, set()), flattened to a list-set
(the empty set for an absent entry). -/
def graphGet (st : QState) (e : Ref) : List Ref :=
  (alookup st.graph e).getD []

/-- self.predecessors.get(x, []). -/
def predsOf (st : QState) (x : Ref) : List Ref :=
  (alookup st.predecessors x).getD []

/-- The predecessor-index update of build_graph:
predecessors[target].append(entity) when the key exists, else
predecessors[target] = [entity]. -/
def addPred (st : QState) (target entity : Ref) : QState :=
  match alookup st.predecessors target with
  | some l => { st with predecessors := ainsert st.predecessors target (l ++ [entity]) }
  | none => { st with predecessors := ainsert st.predecessors target [entity] }

/-- Append a log event to the trace. -/
def pushLog (st : QState) (ev : LogEvent) : QState :=
  { st with trace := st.trace ++ [ev] }

/-- The body loop of build_graph over the flattened (target_type,
target) pairs of the entity's memberOf relation.  `recur` is the
recursive build_graph call at the remaining fuel.  On a lookup failure
the Python code passes None along: None is added to the result set and
the predecessor index, and the recursive call then crashes dereferencing
None.data_repo; the net observable outcome is the raised AttributeError,
modelled here at the point of the failed lookup (the None-keyed entries
recorded just before the crash are unobservable once the exception
aborts the session). -/
def bgLoop (recur : QState → Ref → QRes (List Ref)) (entity : Ref) :
    QState → List (String × String) → List Ref → QRes (List Ref)
  | st, [], acc => .ok st acc
  | st, (tt, tn) :: rest, acc =>
    match find_entity st.entities tt tn with
    | none => .err .attributeNone st
    | some tgt =>
      match recur (addPred st tgt entity) tgt with
      | .ok st2 sub => bgLoop recur entity st2 rest (setUnion (setAdd acc tgt) sub)
      | other => other

/-- QueryTool.build_graph, with explicit fuel bounding the recursion
depth.  Mirrors the source exactly: the memo check tests truthiness of
self.graph.get(entity, set()) (an entry holding the empty set is treated
as absent and recomputed), there is no in-progress marker, and the
completed result is stored under the entity only after the loop over its
member-of edges finishes. -/
def build_graph : Nat → QState → Ref → QRes (List Ref)
  | 0, _, _ => .fuelOut
  | fuel + 1, st, entity =>
    if graphGet st entity ≠ [] then
      .ok (pushLog st (.memoHit entity)) (graphGet st entity)
    else
      match bgLoop (build_graph fuel) entity (pushLog st (.calculating entity))
          (targetsOf st.entities entity) (graphGet st entity) with
      | .ok st2 r =>
        .ok { st2 with graph := ainsert st2.graph entity r,
                       trace := st2.trace ++ [.found entity r.length] } r
      | other => other

/-- The inner `for pred in preds` loop of _construct_path: prepend each
predecessor to the current path; a path reaching `member` is appended to
the emitted paths, any other extension is appended to the queue. -/
def cpExtend (member : Ref) (cur : QPath) :
    List Ref → List QPath → List QPath → List QPath × List QPath
  | [], pathsAcc, queueAcc => (pathsAcc, queueAcc)
  | p :: rest, pathsAcc, queueAcc =>
    if p = member then
      cpExtend member cur rest (pathsAcc ++ [(p, cur.1 :: cur.2)]) queueAcc
    else
      cpExtend member cur rest pathsAcc (queueAcc ++ [(p, cur.1 :: cur.2)])

/-- The while loop of _construct_path over the breadth-first queue,
with fuel bounding the number of iterations (the loop need not
terminate on a cyclic predecessor index). -/
def cpLoop (preds : List (Ref × List Ref)) (member : Ref) :
    Nat → List QPath → List QPath → Option (List QPath)
  | _, [], pathsAcc => some pathsAcc
  | 0, _ :: _, _ => none
  | fuel + 1, cur :: queue, pathsAcc =>
    match cpExtend member cur ((alookup preds cur.1).getD []) pathsAcc queue with
    | (pathsAcc2, queue2) => cpLoop preds member fuel queue2 pathsAcc2

/-- QueryTool._construct_path: a containment check on the path cache
(so an empty cached path list is a genuine hit), then the backward
breadth-first search seeded with [target], then caching of the result
under (member, target). -/
def construct_path (fuel : Nat) (st : QState) (target member : Ref) :
    Option (QState × List QPath) :=
  match alookup st.paths (member, target) with
  | some cached =>
    some (pushLog st (.cachedPaths member target), cached)
  | none =>
    match cpLoop st.predecessors member fuel [(target, [])] [] with
    | none => none
    | some ps =>
      some ({ st with paths := ainsert st.paths (member, target) ps,
                      trace := st.trace ++ [.foundPaths member target ps.length] }, ps)

/-- QueryTool.check_membership: build the graph for the member, then
reconstruct the paths to the target and log the verdict. -/
def check_membership (fb fc : Nat) (st : QState) (entity target : Ref) :
    QRes (List QPath) :=
  match build_graph fb st entity with
  | .ok st1 _ =>
    match construct_path fc st1 target entity with
    | none => .fuelOut
    | some (st2, ps) =>
      if ps ≠ [] then .ok (pushLog st2 (.isMember entity target ps)) ps
      else .ok (pushLog st2 (.isNotMember entity target)) ps
  | .err e stE => .err e stE
  | .fuelOut => .fuelOut

/-- QueryTool._resolve_entities: resolve each (type, name) input
reference through find_entity, raising
ManagerError('%s %s not found in config') at the first failure. -/
def resolve_entities (ed : Store) : List (String × String) → Except QueryError (List Ref)
  | [] => .ok []
  | (t, n) :: rest =>
    match find_entity ed t n with
    | none => .error (.managerNotFound t n)
    | some e =>
      match resolve_entities ed rest with
      | .error er => .error er
      | .ok es => .ok (e :: es)

/-- The inner loop of _query_membership over the target entities. -/
def qmInner (fb fc : Nat) (e : Ref) : QState → List Ref → QRes Unit
  | st, [] => .ok st ()
  | st, t :: ts =>
    match check_membership fb fc st e t with
    | .ok st1 _ => qmInner fb fc e st1 ts
    | .err er stE => .err er stE
    | .fuelOut => .fuelOut

/-- The outer loop of _query_membership over the member entities. -/
def qmOuter (fb fc : Nat) (ts : List Ref) : QState → List Ref → QRes Unit
  | st, [] => .ok st ()
  | st, e :: es =>
    match qmInner fb fc e st ts with
    | .ok st1 _ => qmOuter fb fc ts st1 es
    | .err er stE => .err er stE
    | .fuelOut => .fuelOut

/-- QueryTool._query_membership: resolve the member references, then the
target references (aborting on the first unresolvable one), then check
every (member, target) pair of the cross product in order. -/
def query_membership (fb fc : Nat) (st : QState)
    (members targets : List (String × String)) : QRes Unit :=
  match resolve_entities st.entities members with
  | .error er => .err er st
  | .ok ms =>
    match resolve_entities st.entities targets with
    | .error er => .err er st
    | .ok ts => qmOuter fb fc ts st ms

/-! ### Semantic notions derived from the store

Declared edges and reachability, the notions the specification's claims
are phrased in. -/

/-- A declared member-of edge of the store: entity `p` lists an edge that
find_entity resolves to `q`. -/
def DeclEdge (s : Store) (p q : Ref) : Prop :=
  ∃ tt tn, (tt, tn) ∈ targetsOf s p ∧ find_entity s tt tn = some q

/-- Transitive reachability along declared member-of edges
(one or more hops). -/
inductive Reach (s : Store) : Ref → Ref → Prop where
  | direct {e t : Ref} : DeclEdge s e t → Reach s e t
  | step {e t x : Ref} : DeclEdge s e t → Reach s t x → Reach s e x

/-! ### Basic lemmas about the state helpers -/

theorem pushLog_entities (st : QState) (ev : LogEvent) :
    (pushLog st ev).entities = st.entities := rfl

theorem pushLog_graph (st : QState) (ev : LogEvent) :
    (pushLog st ev).graph = st.graph := rfl

theorem pushLog_predecessors (st : QState) (ev : LogEvent) :
    (pushLog st ev).predecessors = st.predecessors := rfl

theorem pushLog_paths (st : QState) (ev : LogEvent) :
    (pushLog st ev).paths = st.paths := rfl

theorem addPred_entities (st : QState) (u e : Ref) :
    (addPred st u e).entities = st.entities := by
  unfold addPred; cases alookup st.predecessors u <;> rfl

theorem addPred_graph (st : QState) (u e : Ref) :
    (addPred st u e).graph = st.graph := by
  unfold addPred; cases alookup st.predecessors u <;> rfl

theorem addPred_paths (st : QState) (u e : Ref) :
    (addPred st u e).paths = st.paths := by
  unfold addPred; cases alookup st.predecessors u <;> rfl

theorem addPred_trace (st : QState) (u e : Ref) :
    (addPred st u e).trace = st.trace := by
  unfold addPred; cases alookup st.predecessors u <;> rfl

theorem alookup_ainsert {α β : Type} [DecidableEq α]
    (l : List (α × β)) (a : α) (b : β) (x : α) :
    alookup (ainsert l a b) x = if x = a then some b else alookup l x := by
  induction l with
  | nil =>
    simp only [ainsert, alookup]
    by_cases hx : x = a
    · subst hx; simp
    · rw [if_neg (fun h => hx h.symm), if_neg hx]
  | cons kv rest ih =>
    obtain ⟨k, v⟩ := kv
    by_cases hk : k = a
    · subst hk
      by_cases hx : x = k
      · subst hx; simp [ainsert, alookup]
      · have hkx : ¬ k = x := fun h => hx h.symm
        simp [ainsert, alookup, hx, hkx]
    · by_cases hkx : k = x
      · subst hkx
        have hxa : ¬ k = a := hk
        simp [ainsert, alookup, hk, hxa]
      · simp [ainsert, alookup, hk, hkx, ih]

theorem predsOf_addPred (st : QState) (u e q : Ref) :
    predsOf (addPred st u e) q =
      if q = u then predsOf st u ++ [e] else predsOf st q := by
  unfold addPred predsOf
  cases h : alookup st.predecessors u with
  | none =>
    rw [alookup_ainsert]
    by_cases hq : q = u
    · subst hq; simp [h]
    · simp [hq]
  | some l =>
    rw [alookup_ainsert]
    by_cases hq : q = u
    · subst hq; simp
    · simp [hq]

theorem mem_setAdd {s : List Ref} {a x : Ref} :
    x ∈ setAdd s a ↔ x ∈ s ∨ x = a := by
  unfold setAdd
  by_cases h : a ∈ s
  · simp only [if_pos h]
    constructor
    · exact Or.inl
    · rintro (hx | rfl)
      · exact hx
      · exact h
  · simp [if_neg h]

theorem mem_setUnion {s other : List Ref} {x : Ref} :
    x ∈ setUnion s other ↔ x ∈ s ∨ x ∈ other := by
  unfold setUnion
  induction other generalizing s with
  | nil => simp
  | cons a rest ih =>
    simp only [List.foldl_cons, ih, mem_setAdd, List.mem_cons]
    tauto

theorem graphGet_of_ne_nil {st : QState} {e : Ref} (h : graphGet st e ≠ []) :
    alookup st.graph e = some (graphGet st e) := by
  unfold graphGet at *
  cases halo : alookup st.graph e with
  | none => rw [halo] at h; simp at h
  | some l => simp [halo]

theorem alookup_mem_keys {α β : Type} [DecidableEq α]
    {l : List (α × β)} {k : α} {v : β} (h : alookup l k = some v) :
    k ∈ l.map Prod.fst := by
  induction l with
  | nil => simp [alookup] at h
  | cons kv rest ih =>
    obtain ⟨k0, v0⟩ := kv
    by_cases hk : k0 = k
    · subst hk; simp
    · simp only [alookup, if_neg hk] at h
      simp [ih h]

/-! ### C1: behaviour of build_graph on a cyclic member-of relation

A two-entity cycle: cycle-a is a member of cycle-b and vice versa. -/

def cycA : Ref := ⟨"group", "cycle-a"⟩

def cycB : Ref := ⟨"group", "cycle-b"⟩

def cycStore : Store :=
  [(cycA, ⟨[("group", ["cycle-b"])]⟩), (cycB, ⟨[("group", ["cycle-a"])]⟩)]

theorem cyc_no_fuel_suffices :
    ∀ fuel (st : QState), st.entities = cycStore →
      graphGet st cycA = [] → graphGet st cycB = [] →
      build_graph fuel st cycA = .fuelOut ∧ build_graph fuel st cycB = .fuelOut := by
  intro fuel
  induction fuel with
  | zero => intro st _ _ _; exact ⟨rfl, rfl⟩
  | succ n ih =>
    intro st hent hA hB
    have hfindB : find_entity cycStore "group" "cycle-b" = some cycB := by decide
    have hfindA : find_entity cycStore "group" "cycle-a" = some cycA := by decide
    have htgtA : targetsOf cycStore cycA = [("group", "cycle-b")] := by decide
    have htgtB : targetsOf cycStore cycB = [("group", "cycle-a")] := by decide
    constructor
    · rw [build_graph]
      simp only [hA, ne_eq, not_true_eq_false, if_false, pushLog_entities, hent, htgtA]
      rw [bgLoop]
      simp only [pushLog_entities, hent, hfindB]
      have hrec : build_graph n (addPred (pushLog st (.calculating cycA)) cycB cycA) cycB
          = .fuelOut := by
        refine (ih _ ?_ ?_ ?_).2
        · rw [addPred_entities, pushLog_entities, hent]
        · unfold graphGet at hA ⊢; rw [addPred_graph, pushLog_graph]; exact hA
        · unfold graphGet at hB ⊢; rw [addPred_graph, pushLog_graph]; exact hB
      rw [hrec]
    · rw [build_graph]
      simp only [hB, ne_eq, not_true_eq_false, if_false, pushLog_entities, hent, htgtB]
      rw [bgLoop]
      simp only [pushLog_entities, hent, hfindA]
      have hrec : build_graph n (addPred (pushLog st (.calculating cycB)) cycA cycB) cycA
          = .fuelOut := by
        refine (ih _ ?_ ?_ ?_).1
        · rw [addPred_entities, pushLog_entities, hent]
        · unfold graphGet at hA ⊢; rw [addPred_graph, pushLog_graph]; exact hA
        · unfold graphGet at hB ⊢; rw [addPred_graph, pushLog_graph]; exact hB
      rw [hrec]

/-- C1: the claim requires build_graph to terminate on every starting
entity of a cyclic member-of relation.  The source has no
"resolution in progress" marker: on the two-entity cycle the recursion
alternates between the entities without ever storing a graph entry, so
for every fuel bound the interpreter exhausts its fuel — resolve(A) and
resolve(B) never return, contradicting the claim. -/
theorem c1_cycle_divergence :
    ∀ fuel, build_graph fuel (initState cycStore) cycA = .fuelOut ∧
            build_graph fuel (initState cycStore) cycB = .fuelOut :=
  fun fuel => cyc_no_fuel_suffices fuel (initState cycStore) rfl rfl rfl

/-! ### C2: memoization on an entity with an empty reachable set -/

def emptyU : Ref := ⟨"user", "u3"⟩

def emptyStore : Store := [(emptyU, ⟨[]⟩)]

def emptyStateOne : QState :=
  { entities := emptyStore, graph := [(emptyU, [])], predecessors := [],
    paths := [], trace := [.calculating emptyU, .found emptyU 0] }

def emptyStateTwo : QState :=
  { entities := emptyStore, graph := [(emptyU, [])], predecessors := [],
    paths := [],
    trace := [.calculating emptyU, .found emptyU 0,
              .calculating emptyU, .found emptyU 0] }

/-- C2: the claim requires the second resolve(E) call to be a pure memo
hit even when E's reachable set is empty.  The source tests truthiness
of the cached set, so a cached empty set is treated as absent: the
second call returns the same (empty) set and leaves the graph,
predecessor index and path cache unchanged, but it re-runs the body and
re-emits the 'Calculating membership graph' log instead of performing a
memo hit. -/
theorem c2_empty_memo_divergence :
    build_graph 5 (initState emptyStore) emptyU = .ok emptyStateOne [] ∧
    build_graph 5 emptyStateOne emptyU = .ok emptyStateTwo [] ∧
    emptyStateTwo.trace = emptyStateOne.trace ++
      [.calculating emptyU, .found emptyU 0] ∧
    LogEvent.memoHit emptyU ∉ emptyStateTwo.trace ∧
    emptyStateTwo.graph = emptyStateOne.graph ∧
    emptyStateTwo.predecessors = emptyStateOne.predecessors ∧
    emptyStateTwo.paths = emptyStateOne.paths := by
  refine ⟨by decide, by decide, by decide, by decide, rfl, rfl, rfl⟩

/-! ### C6: behaviour on a dangling member-of reference -/

/-- The error kind of an operation outcome, if it raised one. -/
def QRes.errKind {α : Type} : QRes α → Option QueryError
  | .err e _ => some e
  | _ => none

def dangA : Ref := ⟨"group", "dangling-src"⟩

def dangStore : Store := [(dangA, ⟨[("group", ["missing"])]⟩)]

def dangState : QState :=
  { entities := dangStore, graph := [], predecessors := [], paths := [],
    trace := [.calculating dangA] }

/-- C6 counterexample: on the concrete store whose single entity holds a
member-of edge to an absent entity, build_graph aborts with the
AttributeError outcome of dereferencing the missing entity; it does not
signal the specification's DanglingReferenceError for any reference or
state, so the claim as stated is false. -/
theorem c6_counterexample :
    build_graph 5 (initState dangStore) dangA = .err .attributeNone dangState ∧
    ¬ ∃ t n st2, build_graph 5 (initState dangStore) dangA
        = QRes.err (.danglingReference t n) st2 := by
  have h : build_graph 5 (initState dangStore) dangA = .err .attributeNone dangState := by
    decide
  refine ⟨h, ?_⟩
  rintro ⟨t, n, st2, h2⟩
  rw [h] at h2
  simp at h2

theorem bgLoop_err_attr (recur : QState → Ref → QRes (List Ref)) (e : Ref)
    (hrec : ∀ st t er st2, recur st t = .err er st2 → er = .attributeNone) :
    ∀ L (st : QState) acc er st2, bgLoop recur e st L acc = .err er st2 →
      er = .attributeNone := by
  intro L
  induction L with
  | nil => intro st acc er st2 h; simp [bgLoop] at h
  | cons p rest ih =>
    obtain ⟨tt, tn⟩ := p
    intro st acc er st2 h
    rw [bgLoop] at h
    cases hf : find_entity st.entities tt tn with
    | none =>
      rw [hf] at h
      dsimp only at h
      cases h
      rfl
    | some tgt =>
      rw [hf] at h
      dsimp only at h
      cases hr : recur (addPred st tgt e) tgt with
      | ok stA sub => rw [hr] at h; dsimp only at h; exact ih _ _ _ _ h
      | err e2 s2 => rw [hr] at h; dsimp only at h; cases h; exact hrec _ _ _ _ hr
      | fuelOut => rw [hr] at h; dsimp only at h; cases h

theorem build_graph_err_attr :
    ∀ fuel (st : QState) e er st2, build_graph fuel st e = .err er st2 →
      er = .attributeNone := by
  intro fuel
  induction fuel with
  | zero => intro st e er st2 h; simp [build_graph] at h
  | succ n ih =>
    intro st e er st2 h
    rw [build_graph] at h
    by_cases hg : graphGet st e ≠ []
    · rw [if_pos hg] at h; cases h
    · rw [if_neg hg] at h
      cases hb : bgLoop (build_graph n) e (pushLog st (.calculating e))
          (targetsOf st.entities e) (graphGet st e) with
      | ok stA sub => rw [hb] at h; cases h
      | err e2 s2 =>
        rw [hb] at h
        cases h
        exact bgLoop_err_attr (build_graph n) e (fun st3 t er3 st4 h3 => ih st3 t er3 st4 h3)
          _ _ _ _ _ hb
      | fuelOut => rw [hb] at h; cases h

/-- C6 amended: on a member-of edge referencing an entity absent from
the store, build_graph fails fatally with the unhandled AttributeError
arising from dereferencing the missing entity (the error propagates out
of the whole resolution with no recovery); the only error kind the
builder ever raises is this AttributeError, never a dedicated
DanglingReferenceError.  Concretely, on the dangling store the session
aborts in the error state right after the calculation started. -/
theorem c6_amended :
    (∀ fuel (st : QState) e er st2, build_graph fuel st e = .err er st2 →
      er = QueryError.attributeNone) ∧
    build_graph 5 (initState dangStore) dangA = .err .attributeNone dangState :=
  ⟨build_graph_err_attr, by decide⟩

/-- C6 amended witness: the general part of the amended theorem applied
to the concrete dangling store, its equation hypothesis discharged by
that same theorem's concrete part. -/
theorem c6_amended_witness : QueryError.attributeNone = QueryError.attributeNone :=
  c6_amended.1 5 (initState dangStore) dangA QueryError.attributeNone dangState
    c6_amended.2

/-! ### C7: unresolvable query input references -/

theorem resolve_entities_cases (ed : Store) :
    ∀ L : List (String × String),
      (∃ es, resolve_entities ed L = .ok es) ∨
      (∃ r ∈ L, find_entity ed r.1 r.2 = none) := by
  intro L
  induction L with
  | nil => exact Or.inl ⟨[], rfl⟩
  | cons p rest ih =>
    obtain ⟨t, n⟩ := p
    cases hf : find_entity ed t n with
    | none => exact Or.inr ⟨(t, n), by simp, hf⟩
    | some e =>
      rcases ih with ⟨es, hes⟩ | ⟨r, hr, hrf⟩
      · refine Or.inl ⟨e :: es, ?_⟩
        rw [resolve_entities, hf, hes]
      · exact Or.inr ⟨r, List.mem_cons_of_mem _ hr, hrf⟩

theorem resolve_entities_missing (ed : Store) :
    ∀ L : List (String × String), (∃ r ∈ L, find_entity ed r.1 r.2 = none) →
      ∃ t n, (t, n) ∈ L ∧ find_entity ed t n = none ∧
        resolve_entities ed L = .error (.managerNotFound t n) := by
  intro L
  induction L with
  | nil => rintro ⟨r, hr, _⟩; cases hr
  | cons p rest ih =>
    obtain ⟨t, n⟩ := p
    rintro ⟨r, hr, hrf⟩
    cases hf : find_entity ed t n with
    | none =>
      refine ⟨t, n, by simp, hf, ?_⟩
      rw [resolve_entities, hf]
    | some e =>
      have hrest : ∃ r2 ∈ rest, find_entity ed r2.1 r2.2 = none := by
        rcases List.mem_cons.mp hr with rfl | hmem
        · rw [hrf] at hf; cases hf
        · exact ⟨r, hmem, hrf⟩
      obtain ⟨t2, n2, hmem2, hf2, herr2⟩ := ih hrest
      refine ⟨t2, n2, List.mem_cons_of_mem _ hmem2, hf2, ?_⟩
      rw [resolve_entities, hf, herr2]

/-- C7: if any member or target reference fails to resolve against the
entity store, _query_membership raises the
ManagerError('... not found in config') naming an offending missing
reference (the specification's UnresolvedEntityError), before any
membership check runs: the result is an error outcome carrying the
session state *unchanged* — no verdict is logged and the graph,
predecessor index and path cache are untouched. -/
theorem c7_unresolved_abort (fb fc : Nat) (st : QState)
    (members targets : List (String × String))
    (hmiss : ∃ r ∈ members ++ targets, find_entity st.entities r.1 r.2 = none) :
    ∃ t n, (t, n) ∈ members ++ targets ∧ find_entity st.entities t n = none ∧
      query_membership fb fc st members targets = .err (.managerNotFound t n) st := by
  by_cases hm : ∃ r ∈ members, find_entity st.entities r.1 r.2 = none
  · obtain ⟨t, n, hmem, hf, herr⟩ := resolve_entities_missing st.entities members hm
    refine ⟨t, n, List.mem_append_left _ hmem, hf, ?_⟩
    rw [query_membership, herr]
  · have ht : ∃ r ∈ targets, find_entity st.entities r.1 r.2 = none := by
      obtain ⟨r, hr, hrf⟩ := hmiss
      rcases List.mem_append.mp hr with h1 | h2
      · exact absurd ⟨r, h1, hrf⟩ hm
      · exact ⟨r, h2, hrf⟩
    obtain ⟨t, n, hmem, hf, herr⟩ := resolve_entities_missing st.entities targets ht
    rcases resolve_entities_cases st.entities members with ⟨es, hes⟩ | hbad
    · refine ⟨t, n, List.mem_append_right _ hmem, hf, ?_⟩
      rw [query_membership, hes, herr]
    · exact absurd hbad hm

def c7wStore : Store := [(⟨"user", "alice"⟩, ⟨[]⟩)]

/-- C7 witness: a concrete query whose member list names a reference
absent from the store aborts with the not-found error and an unchanged
state. -/
theorem c7_unresolved_abort_witness :
    ∃ t n, (t, n) ∈ [("user", "ghost")] ++ [("user", "alice")] ∧
      find_entity (initState c7wStore).entities t n = none ∧
      query_membership 3 3 (initState c7wStore) [("user", "ghost")] [("user", "alice")]
        = .err (.managerNotFound t n) (initState c7wStore) :=
  c7_unresolved_abort 3 3 (initState c7wStore) [("user", "ghost")] [("user", "alice")]
    ⟨("user", "ghost"), by decide, by decide⟩

/-! ### C8: the path cache memoizes per (member, target) pair -/

theorem construct_path_cache_hit {st : QState} {member target : Ref}
    {P : List QPath} (h : alookup st.paths (member, target) = some P) (fuel : Nat) :
    construct_path fuel st target member =
      some (pushLog st (.cachedPaths member target), P) := by
  rw [construct_path, h]

/-- C8: _construct_path computes the path list at most once per
(member, target) pair in a session.  After any successful call the
result — the empty list included — is stored in the path cache under
(member, target), and every later call for the same pair returns exactly
the stored list for every fuel bound (in particular with fuel 0, so no
backward-search step is re-run), changing the state only by the
cache-hit debug log event. -/
theorem c8_path_cache (fuel : Nat) (st st1 : QState) (target member : Ref)
    (P : List QPath)
    (h : construct_path fuel st target member = some (st1, P)) :
    alookup st1.paths (member, target) = some P ∧
    ∀ fuel2, construct_path fuel2 st1 target member =
      some (pushLog st1 (.cachedPaths member target), P) := by
  have hstore : alookup st1.paths (member, target) = some P := by
    rw [construct_path] at h
    cases hc : alookup st.paths (member, target) with
    | some cached =>
      rw [hc] at h
      cases h
      rw [pushLog_paths, hc]
    | none =>
      rw [hc] at h
      cases hl : cpLoop st.predecessors member fuel [(target, [])] [] with
      | none => rw [hl] at h; cases h
      | some ps =>
        rw [hl] at h
        dsimp only at h
        cases h
        simp [alookup_ainsert]
  exact ⟨hstore, fun fuel2 => construct_path_cache_hit hstore fuel2⟩

def c8wStore : Store := [(⟨"user", "bob"⟩, ⟨[]⟩)]

def c8wM : Ref := ⟨"user", "bob"⟩

def c8wT : Ref := ⟨"group", "nowhere"⟩

/-- C8 witness: a concrete first call (finding no paths) stores the
empty list, and the repeated call is a pure cache hit for every fuel. -/
theorem c8_path_cache_witness :
    alookup (QState.paths
      { entities := c8wStore, graph := [], predecessors := [],
        paths := [((c8wM, c8wT), [])],
        trace := [.foundPaths c8wM c8wT 0] }) (c8wM, c8wT) = some [] ∧
    ∀ fuel2, construct_path fuel2
        { entities := c8wStore, graph := [], predecessors := [],
          paths := [((c8wM, c8wT), [])],
          trace := [.foundPaths c8wM c8wT 0] } c8wT c8wM =
      some (pushLog
        { entities := c8wStore, graph := [], predecessors := [],
          paths := [((c8wM, c8wT), [])],
          trace := [.foundPaths c8wM c8wT 0] } (.cachedPaths c8wM c8wT), []) :=
  c8_path_cache 3 (initState c8wStore) _ c8wT c8wM [] (by decide)

/-! ### C9: no core operation mutates the entity collection -/

theorem bgLoop_entities (recur : QState → Ref → QRes (List Ref)) (e : Ref)
    (hrecOk : ∀ st t st2 r, recur st t = .ok st2 r → st2.entities = st.entities)
    (hrecErr : ∀ st t er st2, recur st t = .err er st2 → st2.entities = st.entities) :
    ∀ L (st : QState) acc,
      (∀ st2 r, bgLoop recur e st L acc = .ok st2 r → st2.entities = st.entities) ∧
      (∀ er st2, bgLoop recur e st L acc = .err er st2 → st2.entities = st.entities) := by
  intro L
  induction L with
  | nil =>
    intro st acc
    constructor
    · intro st2 r h; cases h; rfl
    · intro er st2 h; cases h
  | cons p rest ih =>
    obtain ⟨tt, tn⟩ := p
    intro st acc
    constructor
    · intro st2 r h
      rw [bgLoop] at h
      cases hf : find_entity st.entities tt tn with
      | none => rw [hf] at h; dsimp only at h; cases h
      | some tgt =>
        rw [hf] at h
        dsimp only at h
        cases hr : recur (addPred st tgt e) tgt with
        | ok stA sub =>
          rw [hr] at h; dsimp only at h
          have h1 := (ih stA (setUnion (setAdd acc tgt) sub)).1 st2 r h
          have h2 := hrecOk _ _ _ _ hr
          rw [h1, h2, addPred_entities]
        | err e2 s2 => rw [hr] at h; dsimp only at h; cases h
        | fuelOut => rw [hr] at h; dsimp only at h; cases h
    · intro er st2 h
      rw [bgLoop] at h
      cases hf : find_entity st.entities tt tn with
      | none => rw [hf] at h; dsimp only at h; cases h; rfl
      | some tgt =>
        rw [hf] at h
        dsimp only at h
        cases hr : recur (addPred st tgt e) tgt with
        | ok stA sub =>
          rw [hr] at h; dsimp only at h
          have h1 := (ih stA (setUnion (setAdd acc tgt) sub)).2 er st2 h
          have h2 := hrecOk _ _ _ _ hr
          rw [h1, h2, addPred_entities]
        | err e2 s2 =>
          rw [hr] at h; dsimp only at h
          cases h
          have h2 := hrecErr _ _ _ _ hr
          rw [h2, addPred_entities]
        | fuelOut => rw [hr] at h; dsimp only at h; cases h

theorem build_graph_entities :
    ∀ fuel (st : QState) e,
      (∀ st2 r, build_graph fuel st e = .ok st2 r → st2.entities = st.entities) ∧
      (∀ er st2, build_graph fuel st e = .err er st2 → st2.entities = st.entities) := by
  intro fuel
  induction fuel with
  | zero =>
    intro st e
    refine ⟨fun st2 r h => ?_, fun er st2 h => ?_⟩ <;> cases h
  | succ n ih =>
    intro st e
    have hloop := bgLoop_entities (build_graph n) e
      (fun st3 t st4 r h => (ih st3 t).1 st4 r h)
      (fun st3 t er st4 h => (ih st3 t).2 er st4 h)
    constructor
    · intro st2 r h
      rw [build_graph] at h
      by_cases hg : graphGet st e ≠ []
      · rw [if_pos hg] at h; cases h; rfl
      · rw [if_neg hg] at h
        cases hb : bgLoop (build_graph n) e (pushLog st (.calculating e))
            (targetsOf st.entities e) (graphGet st e) with
        | ok stA sub =>
          rw [hb] at h
          cases h
          have := (hloop _ _ _).1 _ _ hb
          simpa [pushLog] using this
        | err e2 s2 => rw [hb] at h; cases h
        | fuelOut => rw [hb] at h; cases h
    · intro er st2 h
      rw [build_graph] at h
      by_cases hg : graphGet st e ≠ []
      · rw [if_pos hg] at h; cases h
      · rw [if_neg hg] at h
        cases hb : bgLoop (build_graph n) e (pushLog st (.calculating e))
            (targetsOf st.entities e) (graphGet st e) with
        | ok stA sub => rw [hb] at h; cases h
        | err e2 s2 =>
          rw [hb] at h
          cases h
          have := (hloop _ _ _).2 _ _ hb
          simpa [pushLog] using this
        | fuelOut => rw [hb] at h; cases h

theorem construct_path_entities {fuel : Nat} {st : QState} {t m : Ref}
    {st2 : QState} {P : List QPath}
    (h : construct_path fuel st t m = some (st2, P)) : st2.entities = st.entities := by
  rw [construct_path] at h
  cases hc : alookup st.paths (m, t) with
  | some cached => rw [hc] at h; dsimp only at h; cases h; rfl
  | none =>
    rw [hc] at h
    dsimp only at h
    cases hl : cpLoop st.predecessors m fuel [(t, [])] [] with
    | none => rw [hl] at h; cases h
    | some ps => rw [hl] at h; dsimp only at h; cases h; rfl

theorem check_membership_entities_ok {fb fc : Nat} {st : QState} {e t : Ref}
    {st2 : QState} {P : List QPath}
    (h : check_membership fb fc st e t = .ok st2 P) : st2.entities = st.entities := by
  rw [check_membership] at h
  cases hb : build_graph fb st e with
  | ok st1 r =>
    rw [hb] at h
    dsimp only at h
    cases hcp : construct_path fc st1 t e with
    | none => rw [hcp] at h; cases h
    | some pr =>
      obtain ⟨stc, ps⟩ := pr
      rw [hcp] at h
      dsimp only at h
      have hst1 : st1.entities = st.entities := (build_graph_entities fb st e).1 st1 r hb
      have hstc : stc.entities = st1.entities := construct_path_entities hcp
      by_cases hne : ps ≠ []
      · rw [if_pos hne] at h; cases h; rw [pushLog_entities, hstc, hst1]
      · rw [if_neg hne] at h; cases h; rw [pushLog_entities, hstc, hst1]
  | err e2 s2 => rw [hb] at h; dsimp only at h; cases h
  | fuelOut => rw [hb] at h; dsimp only at h; cases h

theorem check_membership_entities_err {fb fc : Nat} {st : QState} {e t : Ref}
    {er : QueryError} {st2 : QState}
    (h : check_membership fb fc st e t = .err er st2) : st2.entities = st.entities := by
  rw [check_membership] at h
  cases hb : build_graph fb st e with
  | ok st1 r =>
    rw [hb] at h
    dsimp only at h
    cases hcp : construct_path fc st1 t e with
    | none => rw [hcp] at h; cases h
    | some pr =>
      obtain ⟨stc, ps⟩ := pr
      rw [hcp] at h
      dsimp only at h
      by_cases hne : ps ≠ []
      · rw [if_pos hne] at h; cases h
      · rw [if_neg hne] at h; cases h
  | err e2 s2 =>
    rw [hb] at h
    dsimp only at h
    cases h
    exact (build_graph_entities fb st e).2 _ _ hb
  | fuelOut => rw [hb] at h; dsimp only at h; cases h

theorem qmInner_entities {fb fc : Nat} {e : Ref} :
    ∀ (ts : List Ref) (st : QState),
      (∀ st2 u, qmInner fb fc e st ts = .ok st2 u → st2.entities = st.entities) ∧
      (∀ er st2, qmInner fb fc e st ts = .err er st2 → st2.entities = st.entities) := by
  intro ts
  induction ts with
  | nil =>
    intro st
    exact ⟨fun st2 u h => by cases h; rfl, fun er st2 h => by cases h⟩
  | cons t rest ih =>
    intro st
    constructor
    · intro st2 u h
      rw [qmInner] at h
      cases hc : check_membership fb fc st e t with
      | ok st1 P =>
        rw [hc] at h; dsimp only at h
        rw [(ih st1).1 st2 u h, check_membership_entities_ok hc]
      | err e2 s2 => rw [hc] at h; dsimp only at h; cases h
      | fuelOut => rw [hc] at h; dsimp only at h; cases h
    · intro er st2 h
      rw [qmInner] at h
      cases hc : check_membership fb fc st e t with
      | ok st1 P =>
        rw [hc] at h; dsimp only at h
        rw [(ih st1).2 er st2 h, check_membership_entities_ok hc]
      | err e2 s2 =>
        rw [hc] at h; dsimp only at h; cases h
        exact check_membership_entities_err hc
      | fuelOut => rw [hc] at h; dsimp only at h; cases h

theorem qmOuter_entities {fb fc : Nat} {ts : List Ref} :
    ∀ (ms : List Ref) (st : QState),
      (∀ st2 u, qmOuter fb fc ts st ms = .ok st2 u → st2.entities = st.entities) ∧
      (∀ er st2, qmOuter fb fc ts st ms = .err er st2 → st2.entities = st.entities) := by
  intro ms
  induction ms with
  | nil =>
    intro st
    exact ⟨fun st2 u h => by cases h; rfl, fun er st2 h => by cases h⟩
  | cons e rest ih =>
    intro st
    constructor
    · intro st2 u h
      rw [qmOuter] at h
      cases hc : qmInner fb fc e st ts with
      | ok st1 v =>
        rw [hc] at h; dsimp only at h
        rw [(ih st1).1 st2 u h, (qmInner_entities ts st).1 st1 v hc]
      | err e2 s2 => rw [hc] at h; dsimp only at h; cases h
      | fuelOut => rw [hc] at h; dsimp only at h; cases h
    · intro er st2 h
      rw [qmOuter] at h
      cases hc : qmInner fb fc e st ts with
      | ok st1 v =>
        rw [hc] at h; dsimp only at h
        rw [(ih st1).2 er st2 h, (qmInner_entities ts st).1 st1 v hc]
      | err e2 s2 =>
        rw [hc] at h; dsimp only at h; cases h
        exact (qmInner_entities ts st).2 _ _ hc
      | fuelOut => rw [hc] at h; dsimp only at h; cases h

theorem query_membership_entities {fb fc : Nat} {st : QState}
    {ms ts : List (String × String)} :
    (∀ st2 u, query_membership fb fc st ms ts = .ok st2 u → st2.entities = st.entities) ∧
    (∀ er st2, query_membership fb fc st ms ts = .err er st2 → st2.entities = st.entities) := by
  constructor
  · intro st2 u h
    rw [query_membership] at h
    cases hm : resolve_entities st.entities ms with
    | error er => rw [hm] at h; dsimp only at h; cases h
    | ok mes =>
      rw [hm] at h; dsimp only at h
      cases ht : resolve_entities st.entities ts with
      | error er => rw [ht] at h; dsimp only at h; cases h
      | ok tes => rw [ht] at h; dsimp only at h; exact (qmOuter_entities mes st).1 st2 u h
  · intro er st2 h
    rw [query_membership] at h
    cases hm : resolve_entities st.entities ms with
    | error er2 => rw [hm] at h; dsimp only at h; cases h; rfl
    | ok mes =>
      rw [hm] at h; dsimp only at h
      cases ht : resolve_entities st.entities ts with
      | error er2 => rw [ht] at h; dsimp only at h; cases h; rfl
      | ok tes => rw [ht] at h; dsimp only at h; exact (qmOuter_entities mes st).2 er st2 h

/-- One call of a core session operation, relating the state of the
QueryTool instance before the call to the state after it (normal return
or raised error). -/
inductive Step : QState → QState → Prop where
  | bgOk (fuel : Nat) (e : Ref) (st st2 : QState) (r : List Ref) :
      build_graph fuel st e = .ok st2 r → Step st st2
  | bgErr (fuel : Nat) (e : Ref) (st st2 : QState) (er : QueryError) :
      build_graph fuel st e = .err er st2 → Step st st2
  | cp (fuel : Nat) (t m : Ref) (st st2 : QState) (P : List QPath) :
      construct_path fuel st t m = some (st2, P) → Step st st2
  | cmOk (fb fc : Nat) (e t : Ref) (st st2 : QState) (P : List QPath) :
      check_membership fb fc st e t = .ok st2 P → Step st st2
  | cmErr (fb fc : Nat) (e t : Ref) (st st2 : QState) (er : QueryError) :
      check_membership fb fc st e t = .err er st2 → Step st st2
  | qmOk (fb fc : Nat) (ms ts : List (String × String)) (st st2 : QState) :
      query_membership fb fc st ms ts = .ok st2 () → Step st st2
  | qmErr (fb fc : Nat) (ms ts : List (String × String)) (st st2 : QState)
      (er : QueryError) :
      query_membership fb fc st ms ts = .err er st2 → Step st st2

/-- A session: any finite sequence of core operation calls. -/
inductive Steps : QState → QState → Prop where
  | refl (st : QState) : Steps st st
  | tail {st st2 st3 : QState} : Steps st st2 → Step st2 st3 → Steps st st3

theorem step_entities {st st2 : QState} (h : Step st st2) :
    st2.entities = st.entities := by
  cases h with
  | bgOk fuel e st st2 r heq => exact (build_graph_entities fuel st e).1 st2 r heq
  | bgErr fuel e st st2 er heq => exact (build_graph_entities fuel st e).2 er st2 heq
  | cp fuel t m st st2 P heq => exact construct_path_entities heq
  | cmOk fb fc e t st st2 P heq => exact check_membership_entities_ok heq
  | cmErr fb fc e t st st2 er heq => exact check_membership_entities_err heq
  | qmOk fb fc ms ts st st2 heq => exact query_membership_entities.1 st2 () heq
  | qmErr fb fc ms ts st st2 er heq => exact query_membership_entities.2 er st2 heq

/-- C9: across any sequence of core operation calls — build_graph,
_construct_path, check_membership and _query_membership, whether they
return normally or raise — the entity store (and thus every entity
record) is identical before and after; only the session-scoped graph,
predecessor index, path cache and log change. -/
theorem c9_frame (st st2 : QState) (h : Steps st st2) :
    st2.entities = st.entities := by
  induction h with
  | refl => rfl
  | tail hsteps hstep ih => rw [step_entities hstep, ih]

def c9wE : Ref := ⟨"user", "carol"⟩

def c9wStore : Store := [(c9wE, ⟨[]⟩)]

def c9wState : QState :=
  { entities := c9wStore, graph := [(c9wE, [])], predecessors := [],
    paths := [], trace := [.calculating c9wE, .found c9wE 0] }

/-- C9 witness: a concrete one-step session (one build_graph call on a
concrete store) has the same entity store before and after. -/
theorem c9_frame_witness : c9wState.entities = (initState c9wStore).entities :=
  c9_frame (initState c9wStore) c9wState
    (Steps.tail (Steps.refl _) (Step.bgOk 3 c9wE _ _ [] (by decide)))

/-! ### Semantic invariants of a query session

The chain and coverage notions used to specify the predecessor index,
the membership graph and the path cache. -/

/-- A full member-to-target chain of declared member-of edges: at least
one edge, starting at m, ending at t. -/
def MemChain (s : Store) (m t : Ref) (l : List Ref) : Prop :=
  List.Chain' (DeclEdge s) l ∧ 2 ≤ l.length ∧ l.head? = some m ∧ l.getLast? = some t

/-- All declared edges out of p are recorded in the predecessor index of
the state. -/
def Covered (s : Store) (st : QState) (p : Ref) : Prop :=
  ∀ q, DeclEdge s p q → p ∈ predsOf st q

/-- Path lists ordered by non-decreasing length (breadth-first emission
order). -/
def LenSorted (P : List QPath) : Prop :=
  List.Pairwise (fun a b : QPath => a.2.length ≤ b.2.length) P

/-- The session invariant over a loaded store: the predecessor index
only records declared edges; every graph entry is exactly the reachable
set of its key and is edge-covered; every path-cache entry is exactly
the set of declared chains for its pair, in breadth-first order. -/
structure Inv (s : Store) (st : QState) : Prop where
  entities_eq : st.entities = s
  preds_sound : ∀ q p, p ∈ predsOf st q → DeclEdge s p q
  graph_sound : ∀ e r, alookup st.graph e = some r → ∀ x, x ∈ r ↔ Reach s e x
  graph_covered : ∀ e r, alookup st.graph e = some r →
    Covered s st e ∧ ∀ x ∈ r, Covered s st x
  cache_exact : ∀ m t P, alookup st.paths (m, t) = some P →
    (∀ c : QPath, c ∈ P ↔ MemChain s m t c.toList) ∧ LenSorted P

theorem inv_initState (s : Store) : Inv s (initState s) where
  entities_eq := rfl
  preds_sound := by intro q p hp; cases hp
  graph_sound := by intro e r h; cases h
  graph_covered := by intro e r h; cases h
  cache_exact := by intro m t P h; cases h

theorem reach_iff_step (s : Store) (e x : Ref) :
    Reach s e x ↔ ∃ t, DeclEdge s e t ∧ (x = t ∨ Reach s t x) := by
  constructor
  · intro h
    cases h with
    | direct hd => exact ⟨_, hd, Or.inl rfl⟩
    | step hd hr => exact ⟨_, hd, Or.inr hr⟩
  · rintro ⟨t, hd, rfl | hr⟩
    · exact .direct hd
    · exact .step hd hr

theorem covered_mono {s : Store} {st st2 : QState} {p : Ref} (h : Covered s st p)
    (hm : ∀ q x, x ∈ predsOf st q → x ∈ predsOf st2 q) : Covered s st2 p :=
  fun q hq => hm q p (h q hq)

theorem predsOf_addPred_mono {st : QState} {u e : Ref} (q p : Ref)
    (h : p ∈ predsOf st q) : p ∈ predsOf (addPred st u e) q := by
  rw [predsOf_addPred]
  by_cases hq : q = u
  · subst hq
    rw [if_pos rfl]
    exact List.mem_append_left _ h
  · rw [if_neg hq]
    exact h

theorem predsOf_addPred_self (st : QState) (u e : Ref) :
    e ∈ predsOf (addPred st u e) u := by
  rw [predsOf_addPred, if_pos rfl]
  exact List.mem_append_right _ (List.mem_singleton.mpr rfl)

theorem inv_pushLog {s : Store} {st : QState} {ev : LogEvent} (h : Inv s st) :
    Inv s (pushLog st ev) :=
  ⟨h.entities_eq, h.preds_sound, h.graph_sound, h.graph_covered, h.cache_exact⟩

theorem inv_addPred {s : Store} {st : QState} {u e : Ref} (h : Inv s st)
    (hedge : DeclEdge s e u) : Inv s (addPred st u e) where
  entities_eq := by rw [addPred_entities]; exact h.entities_eq
  preds_sound := by
    intro q p hp
    rw [predsOf_addPred] at hp
    by_cases hq : q = u
    · rw [if_pos hq] at hp
      rcases List.mem_append.mp hp with h1 | h2
      · exact hq ▸ h.preds_sound u p h1
      · rw [List.mem_singleton.mp h2, hq]
        exact hedge
    · rw [if_neg hq] at hp
      exact h.preds_sound q p hp
  graph_sound := by
    intro e2 r hr
    rw [addPred_graph] at hr
    exact h.graph_sound e2 r hr
  graph_covered := by
    intro e2 r hr
    rw [addPred_graph] at hr
    obtain ⟨h1, h2⟩ := h.graph_covered e2 r hr
    exact ⟨covered_mono h1 predsOf_addPred_mono,
      fun x hx => covered_mono (h2 x hx) predsOf_addPred_mono⟩
  cache_exact := by
    intro m t P hp
    rw [addPred_paths] at hp
    exact h.cache_exact m t P hp

/-- Postcondition of a successful build_graph call. -/
structure BGPost (s : Store) (st st2 : QState) (e : Ref) (r : List Ref) : Prop where
  inv : Inv s st2
  preds_mono : ∀ q p, p ∈ predsOf st q → p ∈ predsOf st2 q
  paths_eq : st2.paths = st.paths
  mem_iff : ∀ x, x ∈ r ↔ Reach s e x
  graph_entry : alookup st2.graph e = some r
  covered_e : Covered s st2 e
  covered_r : ∀ x, x ∈ r → Covered s st2 x

/-- Postcondition of a successful run of the edge loop of build_graph
over a remaining edge list L for entity e. -/
structure LoopPost (s : Store) (e : Ref) (L : List (String × String))
    (st st2 : QState) (acc r : List Ref) : Prop where
  inv : Inv s st2
  preds_mono : ∀ q p, p ∈ predsOf st q → p ∈ predsOf st2 q
  paths_eq : st2.paths = st.paths
  mem_iff : ∀ x, x ∈ r ↔ x ∈ acc ∨ ∃ tt tn, (tt, tn) ∈ L ∧
    ∃ u, find_entity s tt tn = some u ∧ (x = u ∨ Reach s u x)
  edge_done : ∀ tt tn, (tt, tn) ∈ L → ∃ u, find_entity s tt tn = some u ∧
    e ∈ predsOf st2 u ∧ Covered s st2 u ∧ ∀ x, Reach s u x → Covered s st2 x

theorem bgLoop_spec (s : Store) (recur : QState → Ref → QRes (List Ref)) (e : Ref)
    (hrec : ∀ st t st2 r, recur st t = .ok st2 r → Inv s st → BGPost s st st2 t r) :
    ∀ L (st : QState) acc st2 r, bgLoop recur e st L acc = .ok st2 r → Inv s st →
      (∀ p ∈ L, p ∈ targetsOf s e) → LoopPost s e L st st2 acc r := by
  intro L
  induction L with
  | nil =>
    intro st acc st2 r h hinv hL
    cases h
    exact { inv := hinv, preds_mono := fun q p hp => hp, paths_eq := rfl,
            mem_iff := by intro x; simp, edge_done := by intro tt tn hmem; cases hmem }
  | cons pr rest ih =>
    obtain ⟨tt, tn⟩ := pr
    intro st acc st2 r h hinv hL
    rw [bgLoop] at h
    cases hf : find_entity st.entities tt tn with
    | none => rw [hf] at h; dsimp only at h; cases h
    | some tgt =>
      rw [hf] at h
      dsimp only at h
      cases hr : recur (addPred st tgt e) tgt with
      | err e2 s2 => rw [hr] at h; dsimp only at h; cases h
      | fuelOut => rw [hr] at h; dsimp only at h; cases h
      | ok stA sub =>
        rw [hr] at h
        dsimp only at h
        have hfs : find_entity s tt tn = some tgt := by
          rw [← hinv.entities_eq]; exact hf
        have hedge : DeclEdge s e tgt := ⟨tt, tn, hL (tt, tn) (by simp), hfs⟩
        have hinv1 : Inv s (addPred st tgt e) := inv_addPred hinv hedge
        have hpost := hrec _ _ _ _ hr hinv1
        have hloop := ih stA (setUnion (setAdd acc tgt) sub) st2 r h hpost.inv
          (fun p hp => hL p (List.mem_cons_of_mem _ hp))
        have hmono : ∀ q p, p ∈ predsOf st q → p ∈ predsOf st2 q := fun q p hp =>
          hloop.preds_mono q p (hpost.preds_mono q p (predsOf_addPred_mono q p hp))
        refine { inv := hloop.inv, preds_mono := hmono, paths_eq := ?_,
                 mem_iff := ?_, edge_done := ?_ }
        · rw [hloop.paths_eq, hpost.paths_eq, addPred_paths]
        · intro x
          rw [hloop.mem_iff x, mem_setUnion, mem_setAdd, hpost.mem_iff x]
          constructor
          · rintro (((hx | hxeq) | hx) | ⟨tt2, tn2, hmem, u, hu, hxu⟩)
            · exact Or.inl hx
            · exact Or.inr ⟨tt, tn, by simp, tgt, hfs, Or.inl hxeq⟩
            · exact Or.inr ⟨tt, tn, by simp, tgt, hfs, Or.inr hx⟩
            · exact Or.inr ⟨tt2, tn2, List.mem_cons_of_mem _ hmem, u, hu, hxu⟩
          · rintro (hx | ⟨tt2, tn2, hmem, u, hu, hxu⟩)
            · exact Or.inl (Or.inl (Or.inl hx))
            · rcases List.mem_cons.mp hmem with heq | hmem2
              · cases heq
                have hu2 : u = tgt := by
                  rw [hfs] at hu
                  exact (Option.some_inj.mp hu).symm
                subst hu2
                rcases hxu with rfl | hr2
                · exact Or.inl (Or.inl (Or.inr rfl))
                · exact Or.inl (Or.inr hr2)
              · exact Or.inr ⟨tt2, tn2, hmem2, u, hu, hxu⟩
        · intro tt2 tn2 hmem
          rcases List.mem_cons.mp hmem with heq | hmem2
          · cases heq
            refine ⟨tgt, hfs, ?_, ?_, ?_⟩
            · exact hloop.preds_mono _ _ (hpost.preds_mono _ _ (predsOf_addPred_self st tgt e))
            · exact covered_mono hpost.covered_e hloop.preds_mono
            · intro x hrx
              have hx : x ∈ sub := (hpost.mem_iff x).mpr hrx
              exact covered_mono (hpost.covered_r x hx) hloop.preds_mono
          · exact hloop.edge_done tt2 tn2 hmem2

theorem build_graph_spec (s : Store) :
    ∀ fuel (st : QState) e st2 r, build_graph fuel st e = .ok st2 r → Inv s st →
      BGPost s st st2 e r := by
  intro fuel
  induction fuel with
  | zero => intro st e st2 r h _; cases h
  | succ n ih =>
    intro st e st2 r h hinv
    rw [build_graph] at h
    by_cases hg : graphGet st e = []
    · rw [if_neg (fun hne => hne hg)] at h
      rw [hinv.entities_eq, hg] at h
      cases hb : bgLoop (build_graph n) e (pushLog st (.calculating e)) (targetsOf s e) [] with
      | err e2 s2 => rw [hb] at h; dsimp only at h; cases h
      | fuelOut => rw [hb] at h; dsimp only at h; cases h
      | ok stA rA =>
        rw [hb] at h
        dsimp only at h
        cases h
        have hloop := bgLoop_spec s (build_graph n) e ih (targetsOf s e)
          (pushLog st (.calculating e)) [] stA r hb (inv_pushLog hinv)
          (fun p hp => hp)
        have hmem : ∀ x, x ∈ r ↔ Reach s e x := by
          intro x
          rw [hloop.mem_iff x, reach_iff_step]
          simp only [List.not_mem_nil, false_or]
          constructor
          · rintro ⟨tt, tn, hmem2, u, hu, hxu⟩
            exact ⟨u, ⟨tt, tn, hmem2, hu⟩, hxu⟩
          · rintro ⟨u, ⟨tt, tn, hmem2, hu⟩, hxu⟩
            exact ⟨tt, tn, hmem2, u, hu, hxu⟩
        have hcov_e : Covered s stA e := by
          intro q hq
          obtain ⟨tt, tn, hmem2, hfind⟩ := hq
          obtain ⟨u, hu, hpred, hcovu, hcovr⟩ := hloop.edge_done tt tn hmem2
          rw [hu] at hfind
          cases hfind
          exact hpred
        have hcov_r : ∀ x, x ∈ r → Covered s stA x := by
          intro x hx
          rcases (hloop.mem_iff x).mp hx with hfalse | ⟨tt, tn, hmem2, u, hu, hxu⟩
          · cases hfalse
          · obtain ⟨u2, hu2, hpred, hcovu, hcovreach⟩ := hloop.edge_done tt tn hmem2
            rw [hu] at hu2
            cases hu2
            rcases hxu with rfl | hr2
            · exact hcovu
            · exact hcovreach x hr2
        have hgraph : ∀ e2 r2,
            alookup (ainsert stA.graph e r) e2 = some r2 → ∀ x, x ∈ r2 ↔ Reach s e2 x := by
          intro e2 r2 hr2
          rw [alookup_ainsert] at hr2
          by_cases he2 : e2 = e
          · rw [if_pos he2] at hr2
            cases hr2
            exact he2 ▸ hmem
          · rw [if_neg he2] at hr2
            exact hloop.inv.graph_sound e2 r2 hr2
        have hgcov : ∀ e2 r2, alookup (ainsert stA.graph e r) e2 = some r2 →
            Covered s stA e2 ∧ ∀ x ∈ r2, Covered s stA x := by
          intro e2 r2 hr2
          rw [alookup_ainsert] at hr2
          by_cases he2 : e2 = e
          · rw [if_pos he2] at hr2
            cases hr2
            exact he2 ▸ ⟨hcov_e, fun x hx => hcov_r x hx⟩
          · rw [if_neg he2] at hr2
            exact hloop.inv.graph_covered e2 r2 hr2
        refine { inv := ⟨hloop.inv.entities_eq, hloop.inv.preds_sound, hgraph, hgcov,
                   hloop.inv.cache_exact⟩,
                 preds_mono := hloop.preds_mono, paths_eq := hloop.paths_eq,
                 mem_iff := hmem, graph_entry := ?_,
                 covered_e := hcov_e, covered_r := hcov_r }
        show alookup (ainsert stA.graph e r) e = some r
        rw [alookup_ainsert, if_pos rfl]
    · rw [if_pos hg] at h
      cases h
      have hentry := graphGet_of_ne_nil hg
      exact { inv := inv_pushLog hinv, preds_mono := fun q p hp => hp,
              paths_eq := rfl,
              mem_iff := hinv.graph_sound e _ hentry,
              graph_entry := hentry,
              covered_e := (hinv.graph_covered e _ hentry).1,
              covered_r := fun x hx => (hinv.graph_covered e _ hentry).2 x hx }

/-! ### Chains and reachability -/

theorem chain_head_reaches (s : Store) :
    ∀ (l : List Ref) (m : Ref), List.Chain' (DeclEdge s) (m :: l) →
      ∀ x ∈ l, Reach s m x := by
  intro l
  induction l with
  | nil => intro m _ x hx; cases hx
  | cons a rest ih =>
    intro m hch x hx
    have hedge : DeclEdge s m a := (List.chain'_cons'.mp hch).1 a rfl
    rcases List.mem_cons.mp hx with rfl | hx2
    · exact .direct hedge
    · exact .step hedge (ih a (List.chain'_cons'.mp hch).2 x hx2)

theorem chain_nodup (s : Store) (hacy : ∀ e, ¬ Reach s e e) :
    ∀ l : List Ref, List.Chain' (DeclEdge s) l → l.Nodup := by
  intro l
  induction l with
  | nil => intro _; exact List.nodup_nil
  | cons m rest ih =>
    intro hch
    refine List.nodup_cons.mpr ⟨?_, ih hch.tail⟩
    intro hmem
    exact hacy m (chain_head_reaches s rest m hch m hmem)

theorem chain_reach (s : Store) :
    ∀ (l : List Ref) (m x : Ref), List.Chain' (DeclEdge s) l →
      l.head? = some m → l.getLast? = some x → 2 ≤ l.length → Reach s m x := by
  intro l
  induction l with
  | nil => intro m x _ h; cases h
  | cons a rest ih =>
    intro m x hch hhead hlast hlen
    have ha : a = m := by simpa using hhead
    subst ha
    cases rest with
    | nil => simp at hlen
    | cons b rest2 =>
      have hedge : DeclEdge s a b := (List.chain'_cons'.mp hch).1 b rfl
      cases rest2 with
      | nil =>
        have hb : b = x := by simpa using hlast
        subst hb
        exact .direct hedge
      | cons c rest3 =>
        refine .step hedge (ih b x (List.chain'_cons'.mp hch).2 rfl ?_ (by simp))
        rw [List.getLast?_cons_cons] at hlast
        exact hlast

theorem reach_iff_chain (s : Store) (m x : Ref) :
    Reach s m x ↔ ∃ l, MemChain s m x l := by
  constructor
  · intro h
    induction h with
    | @direct e t hd =>
      exact ⟨[e, t], List.chain'_pair.mpr hd, by simp, rfl, by simp⟩
    | @step e t y hd hr ihr =>
      obtain ⟨l, hch, hlen, hhead, hlast⟩ := ihr
      cases l with
      | nil => simp at hlen
      | cons a rest =>
        have ha : a = t := by simpa using hhead
        subst ha
        refine ⟨e :: a :: rest, ?_, by simp, rfl, ?_⟩
        · exact List.chain'_cons'.mpr ⟨fun y2 hy2 => by cases hy2; exact hd, hch⟩
        · rw [List.getLast?_cons_cons]
          exact hlast
  · rintro ⟨l, hch, hlen, hhead, hlast⟩
    exact chain_reach s l m x hch hhead hlast hlen

/-! ### The backward breadth-first search of _construct_path -/

/-- A link of a raw predecessor map: p is recorded as predecessor of q. -/
def PredLink (pr : List (Ref × List Ref)) (p q : Ref) : Prop :=
  p ∈ (alookup pr q).getD []

/-- Soundness invariant of an emitted path: a predecessor chain from the
member to the target with at least one link. -/
def PSound (pr : List (Ref × List Ref)) (member target : Ref) (c : QPath) : Prop :=
  List.Chain' (PredLink pr) c.toList ∧ c.toList.getLast? = some target ∧
    c.1 = member ∧ 2 ≤ c.toList.length

/-- A complete member-to-target predecessor chain with the member not
repeated in its interior (the search never extends past the member). -/
def FullPChain (pr : List (Ref × List Ref)) (member target : Ref) (l : List Ref) : Prop :=
  List.Chain' (PredLink pr) l ∧ l.head? = some member ∧ l.getLast? = some target ∧
    2 ≤ l.length ∧ member ∉ l.tail

theorem cpExtend_eq (member : Ref) (cur : QPath) :
    ∀ (ps : List Ref) (pathsAcc queueAcc : List QPath),
      cpExtend member cur ps pathsAcc queueAcc =
        (pathsAcc ++ (ps.filter (fun p => p == member)).map
            (fun p => ((p, cur.1 :: cur.2) : QPath)),
         queueAcc ++ (ps.filter (fun p => !(p == member))).map
            (fun p => ((p, cur.1 :: cur.2) : QPath))) := by
  intro ps
  induction ps with
  | nil => intro pa qa; simp [cpExtend]
  | cons p rest ih =>
    intro pa qa
    by_cases hp : p = member
    · subst hp
      rw [cpExtend, if_pos rfl, ih]
      simp
    · rw [cpExtend, if_neg hp, ih]
      simp [hp]

theorem cpLoop_sound (pr : List (Ref × List Ref)) (member target : Ref) :
    ∀ (fuel : Nat) (queue pathsAcc res : List QPath),
      cpLoop pr member fuel queue pathsAcc = some res →
      (∀ q ∈ queue, List.Chain' (PredLink pr) q.toList ∧
        q.toList.getLast? = some target) →
      (∀ c ∈ pathsAcc, PSound pr member target c) →
      ∀ c ∈ res, PSound pr member target c := by
  intro fuel
  induction fuel with
  | zero =>
    intro queue pathsAcc res h hq hp
    cases queue with
    | nil => cases h; exact hp
    | cons a as => cases h
  | succ n ih =>
    intro queue pathsAcc res h hq hp
    cases queue with
    | nil => cases h; exact hp
    | cons cur queue2 =>
      rw [cpLoop, cpExtend_eq] at h
      dsimp only at h
      have hcur := hq cur (List.mem_cons_self _ _)
      refine ih _ _ _ h ?_ ?_
      · intro q hq2
        rcases List.mem_append.mp hq2 with h1 | h2
        · exact hq q (List.mem_cons_of_mem _ h1)
        · obtain ⟨p, hpmem, rfl⟩ := List.mem_map.mp h2
          have hpf := List.mem_filter.mp hpmem
          refine ⟨List.chain'_cons'.mpr ⟨fun y hy => ?_, hcur.1⟩, ?_⟩
          · cases hy
            exact hpf.1
          · show (QPath.toList (p, cur.1 :: cur.2)).getLast? = some target
            rw [show QPath.toList (p, cur.1 :: cur.2)
                = p :: cur.1 :: cur.2 from rfl, List.getLast?_cons_cons]
            exact hcur.2
      · intro c hc
        rcases List.mem_append.mp hc with h1 | h2
        · exact hp c h1
        · obtain ⟨p, hpmem, rfl⟩ := List.mem_map.mp h2
          have hpf := List.mem_filter.mp hpmem
          have hpm : p = member := by simpa using hpf.2
          refine ⟨List.chain'_cons'.mpr ⟨fun y hy => ?_, hcur.1⟩, ?_, hpm, ?_⟩
          · cases hy
            exact hpf.1
          · rw [show QPath.toList (p, cur.1 :: cur.2)
                = p :: cur.1 :: cur.2 from rfl, List.getLast?_cons_cons]
            exact hcur.2
          · show 2 ≤ (p :: cur.1 :: cur.2).length
            simp

theorem cpLoop_complete (pr : List (Ref × List Ref)) (member target : Ref) :
    ∀ (fuel : Nat) (queue pathsAcc res : List QPath),
      cpLoop pr member fuel queue pathsAcc = some res →
      (∀ l, FullPChain pr member target l →
        (∃ c ∈ pathsAcc, c.toList = l) ∨
        (∃ q ∈ queue, q.toList ≠ l ∧ q.toList <:+ l)) →
      ∀ l, FullPChain pr member target l → ∃ c ∈ res, c.toList = l := by
  intro fuel
  induction fuel with
  | zero =>
    intro queue pathsAcc res h hcov l hl
    cases queue with
    | nil =>
      cases h
      rcases hcov l hl with ⟨c, hc, hcl⟩ | ⟨q, hq, _⟩
      · exact ⟨c, hc, hcl⟩
      · cases hq
    | cons a as => cases h
  | succ n ih =>
    intro queue pathsAcc res h hcov l0 hl0
    cases queue with
    | nil =>
      cases h
      rcases hcov l0 hl0 with ⟨c, hc, hcl⟩ | ⟨q, hq, _⟩
      · exact ⟨c, hc, hcl⟩
      · cases hq
    | cons cur queue2 =>
      rw [cpLoop, cpExtend_eq] at h
      dsimp only at h
      refine ih _ _ _ h ?_ l0 hl0
      intro l hl
      obtain ⟨hch, hhead, hlast, hlen, hint⟩ := hl
      rcases hcov l ⟨hch, hhead, hlast, hlen, hint⟩ with ⟨c, hc, hcl⟩ | ⟨q, hq, hqne, hqsuf⟩
      · exact Or.inl ⟨c, List.mem_append_left _ hc, hcl⟩
      · rcases List.mem_cons.mp hq with heq | hq2
        · subst heq
          obtain ⟨d, hd⟩ := hqsuf
          have hdne : d ≠ [] := by
            intro hdnil
            rw [hdnil, List.nil_append] at hd
            exact hqne hd
          rcases List.eq_nil_or_concat d with hdnil | ⟨d0, p, hd0⟩
          · exact absurd hdnil hdne
          · rw [List.concat_eq_append] at hd0
            subst hd0
            subst hd
            have hlink : PredLink pr p q.1 := by
              refine (List.chain'_append.mp hch).2.2 p ?_ q.1 ?_
              · rw [List.getLast?_concat]
                exact Option.mem_def.mpr rfl
              · exact Option.mem_def.mpr rfl
            by_cases hpm : p = member
            · have hd0nil : d0 = [] := by
                cases hd0c : d0 with
                | nil => rfl
                | cons a d1 =>
                  exfalso
                  apply hint
                  subst hd0c
                  have htl : (a :: d1 ++ [p] ++ q.toList).tail
                      = d1 ++ [p] ++ q.toList := by simp
                  rw [htl, ← hpm]
                  simp
              subst hd0nil
              refine Or.inl ⟨(p, q.1 :: q.2), List.mem_append_right _ ?_, ?_⟩
              · exact List.mem_map.mpr ⟨p, List.mem_filter.mpr ⟨hlink, by simp [hpm]⟩, rfl⟩
              · show QPath.toList (p, q.1 :: q.2) = [] ++ [p] ++ q.toList
                simp [QPath.toList]
            · have hd0ne : d0 ≠ [] := by
                intro hdnil
                subst hdnil
                apply hpm
                simpa using hhead
              refine Or.inr ⟨(p, q.1 :: q.2), List.mem_append_right _ ?_, ?_, ?_⟩
              · exact List.mem_map.mpr ⟨p, List.mem_filter.mpr ⟨hlink, by simp [hpm]⟩, rfl⟩
              · intro heq2
                apply hd0ne
                have hlen2 := congrArg List.length heq2
                simp only [QPath.toList, List.length_cons, List.length_append] at hlen2
                have hzero : d0.length = 0 := by omega
                exact List.length_eq_zero.mp hzero
              · exact ⟨d0, by simp [QPath.toList]⟩
        · exact Or.inr ⟨q, List.mem_append_left _ hq2, hqne, hqsuf⟩

theorem cpLoop_sorted (pr : List (Ref × List Ref)) (member : Ref) :
    ∀ (fuel : Nat) (queue pathsAcc res : List QPath),
      cpLoop pr member fuel queue pathsAcc = some res →
      List.Pairwise (fun a b : QPath => a.2.length ≤ b.2.length) queue →
      (∀ a b : QPath, a ∈ queue → b ∈ queue → a.2.length ≤ b.2.length + 1) →
      LenSorted pathsAcc →
      (∀ c q : QPath, c ∈ pathsAcc → q ∈ queue → c.2.length ≤ q.2.length + 1) →
      LenSorted res := by
  intro fuel
  induction fuel with
  | zero =>
    intro queue pathsAcc res h hqs hqb hps hpb
    cases queue with
    | nil => cases h; exact hps
    | cons a as => cases h
  | succ n ih =>
    intro queue pathsAcc res h hqs hqb hps hpb
    cases queue with
    | nil => cases h; exact hps
    | cons cur queue2 =>
      rw [cpLoop, cpExtend_eq] at h
      dsimp only at h
      have hnewlen : ∀ (g : Ref → Bool) (x : QPath),
          x ∈ (((alookup pr cur.1).getD []).filter g).map
            (fun p => ((p, cur.1 :: cur.2) : QPath)) →
          x.2.length = cur.2.length + 1 := by
        intro g x hx
        obtain ⟨p, _, rfl⟩ := List.mem_map.mp hx
        simp
      have hcurq : ∀ b : QPath, b ∈ queue2 → cur.2.length ≤ b.2.length :=
        fun b hb => List.rel_of_pairwise_cons hqs hb
      refine ih _ _ _ h ?_ ?_ ?_ ?_
      · -- queue2 ++ new queue elements is length-sorted
        rw [List.pairwise_append]
        refine ⟨hqs.of_cons, ?_, ?_⟩
        · refine List.pairwise_of_forall_mem_list ?_
          intro a ha b hb
          rw [hnewlen _ a ha, hnewlen _ b hb]
        · intro a ha b hb
          rw [hnewlen _ b hb]
          calc a.2.length ≤ cur.2.length + 1 :=
                hqb a cur (List.mem_cons_of_mem _ ha) (List.mem_cons_self _ _)
            _ = _ := rfl
      · -- pairwise step bound for the new queue
        intro a b ha hb
        rcases List.mem_append.mp ha with ha1 | ha2 <;>
          rcases List.mem_append.mp hb with hb1 | hb2
        · exact hqb a b (List.mem_cons_of_mem _ ha1) (List.mem_cons_of_mem _ hb1)
        · rw [hnewlen _ b hb2]
          have := hqb a cur (List.mem_cons_of_mem _ ha1) (List.mem_cons_self _ _)
          omega
        · rw [hnewlen _ a ha2]
          have := hcurq b hb1
          omega
        · rw [hnewlen _ a ha2, hnewlen _ b hb2]
          omega
      · -- emitted paths stay length-sorted
        rw [LenSorted, List.pairwise_append]
        refine ⟨hps, ?_, ?_⟩
        · refine List.pairwise_of_forall_mem_list ?_
          intro a ha b hb
          rw [hnewlen _ a ha, hnewlen _ b hb]
        · intro a ha b hb
          rw [hnewlen _ b hb]
          exact hpb a cur ha (List.mem_cons_self _ _)
      · -- emitted-to-queue bound
        intro c q hc hq
        rcases List.mem_append.mp hc with hc1 | hc2 <;>
          rcases List.mem_append.mp hq with hq1 | hq2
        · exact hpb c q hc1 (List.mem_cons_of_mem _ hq1)
        · rw [hnewlen _ q hq2]
          have := hpb c cur hc1 (List.mem_cons_self _ _)
          omega
        · rw [hnewlen _ c hc2]
          have := hcurq q hq1
          omega
        · rw [hnewlen _ c hc2, hnewlen _ q hq2]
          omega

theorem chain_decl_to_pred (s : Store) (st : QState) :
    ∀ l : List Ref, List.Chain' (DeclEdge s) l → (∀ a ∈ l, Covered s st a) →
      List.Chain' (PredLink st.predecessors) l := by
  intro l
  induction l with
  | nil => intro _ _; exact List.chain'_nil
  | cons a rest ih =>
    intro hch hcov
    refine List.chain'_cons'.mpr
      ⟨?_, ih hch.tail (fun x hx => hcov x (List.mem_cons_of_mem _ hx))⟩
    intro y hy
    exact hcov a (List.mem_cons_self _ _) y ((List.chain'_cons'.mp hch).1 y hy)

/-- Full specification of a successful _construct_path call at a state
satisfying the session invariant, with the member's reachable cone
edge-covered: the returned list contains exactly the declared
member-to-target chains, in breadth-first (length-sorted) order, and the
invariant still holds afterwards. -/
theorem construct_path_spec (s : Store) (st : QState) (fuel : Nat)
    (target member : Ref) (st2 : QState) (P : List QPath)
    (hacy : ∀ e, ¬ Reach s e e)
    (hinv : Inv s st)
    (hcovm : Covered s st member)
    (hcovr : ∀ x, Reach s member x → Covered s st x)
    (h : construct_path fuel st target member = some (st2, P)) :
    (∀ c : QPath, c ∈ P ↔ MemChain s member target c.toList) ∧ LenSorted P ∧
      Inv s st2 ∧ st2.predecessors = st.predecessors ∧ st2.graph = st.graph := by
  rw [construct_path] at h
  cases hc : alookup st.paths (member, target) with
  | some cached =>
    rw [hc] at h
    dsimp only at h
    cases h
    obtain ⟨hex, hsort⟩ := hinv.cache_exact member target P hc
    exact ⟨hex, hsort, inv_pushLog hinv, rfl, rfl⟩
  | none =>
    rw [hc] at h
    dsimp only at h
    cases hl : cpLoop st.predecessors member fuel [(target, [])] [] with
    | none => rw [hl] at h; cases h
    | some ps =>
      rw [hl] at h
      dsimp only at h
      cases h
      have hsound : ∀ c ∈ P, PSound st.predecessors member target c := by
        refine cpLoop_sound st.predecessors member target fuel _ _ _ hl ?_ ?_
        · intro q hq
          rcases List.mem_singleton.mp hq with rfl
          exact ⟨List.chain'_singleton _, rfl⟩
        · intro c hc2
          cases hc2
      have hexact : ∀ c : QPath, c ∈ P ↔ MemChain s member target c.toList := by
        intro c
        constructor
        · intro hcp
          obtain ⟨hch, hlast, hcm, hlen⟩ := hsound c hcp
          refine ⟨hch.imp (fun a b hab => hinv.preds_sound b a hab), hlen, ?_, hlast⟩
          rw [show c.toList.head? = some c.1 from rfl, hcm]
        · intro hmc
          obtain ⟨hch, hlen, hhead, hlast⟩ := hmc
          have hc1 : c.1 = member := by simpa [QPath.toList] using hhead
          have hallcov : ∀ a ∈ c.toList, Covered s st a := by
            intro a ha
            rcases List.mem_cons.mp ha with rfl | haR
            · rw [hc1]; exact hcovm
            · refine hcovr a ?_
              have := chain_head_reaches s c.2 c.1 hch a haR
              rwa [hc1] at this
          have hfull : FullPChain st.predecessors member target c.toList := by
            refine ⟨chain_decl_to_pred s st c.toList hch hallcov, ?_, hlast, hlen, ?_⟩
            · rw [show c.toList.head? = some c.1 from rfl, hc1]
            · intro hmem
              apply hacy member
              have := chain_head_reaches s c.2 c.1 hch member hmem
              rwa [hc1] at this
          obtain ⟨c2, hc2, hceq⟩ := cpLoop_complete st.predecessors member target fuel
            [(target, [])] [] P hl
            (by
              intro l hlf
              obtain ⟨_, _, hllast, hllen, _⟩ := hlf
              refine Or.inr ⟨(target, []), List.mem_singleton.mpr rfl, ?_, ?_⟩
              · intro heq
                rw [← heq] at hllen
                simp [QPath.toList] at hllen
              · exact ⟨l.dropLast,
                  List.dropLast_append_getLast? target (Option.mem_def.mpr hllast)⟩)
            c.toList hfull
          have hc2c : c2 = c := by
            obtain ⟨a, b⟩ := c2
            obtain ⟨a2, b2⟩ := c
            simpa [QPath.toList] using hceq
          rw [← hc2c]
          exact hc2
      have hsorted : LenSorted P := by
        refine cpLoop_sorted st.predecessors member fuel _ _ _ hl ?_ ?_ ?_ ?_
        · exact List.pairwise_singleton _ _
        · intro a b ha hb
          rcases List.mem_singleton.mp ha with rfl
          rcases List.mem_singleton.mp hb with rfl
          simp
        · exact List.Pairwise.nil
        · intro c q hc2 _
          cases hc2
      refine ⟨hexact, hsorted, ?_, rfl, rfl⟩
      exact { entities_eq := hinv.entities_eq
              preds_sound := hinv.preds_sound
              graph_sound := hinv.graph_sound
              graph_covered := hinv.graph_covered
              cache_exact := by
                intro m2 t2 P2 hp2
                have hp3 : alookup (ainsert st.paths (member, target) P) (m2, t2)
                    = some P2 := hp2
                rw [alookup_ainsert] at hp3
                by_cases hmt : (m2, t2) = (member, target)
                · rw [if_pos hmt] at hp3
                  cases hp3
                  obtain ⟨rfl, rfl⟩ : m2 = member ∧ t2 = target := Prod.ext_iff.mp hmt
                  exact ⟨hexact, hsorted⟩
                · rw [if_neg hmt] at hp3
                  exact hinv.cache_exact m2 t2 P2 hp3 }

theorem psound_memchain {s : Store} {st : QState} {member target : Ref} {c : QPath}
    (hinv : Inv s st) (h : PSound st.predecessors member target c) :
    MemChain s member target c.toList := by
  obtain ⟨hch, hlast, hcm, hlen⟩ := h
  refine ⟨hch.imp (fun a b hab => hinv.preds_sound b a hab), hlen, ?_, hlast⟩
  rw [show c.toList.head? = some c.1 from rfl, hcm]

/-- Soundness of any successful _construct_path call at an invariant
state, with no assumption that the member has been resolved: every
returned path is a declared member-to-target chain. -/
theorem construct_path_sound (s : Store) (st : QState) (fuel : Nat)
    (target member : Ref) (st2 : QState) (P : List QPath)
    (hinv : Inv s st) (h : construct_path fuel st target member = some (st2, P)) :
    ∀ c ∈ P, MemChain s member target c.toList := by
  rw [construct_path] at h
  cases hc : alookup st.paths (member, target) with
  | some cached =>
    rw [hc] at h
    dsimp only at h
    cases h
    exact fun c hc2 => ((hinv.cache_exact member target P hc).1 c).mp hc2
  | none =>
    rw [hc] at h
    dsimp only at h
    cases hl : cpLoop st.predecessors member fuel [(target, [])] [] with
    | none => rw [hl] at h; cases h
    | some ps =>
      rw [hl] at h
      dsimp only at h
      cases h
      intro c hc2
      refine psound_memchain hinv ?_
      refine cpLoop_sound st.predecessors member target fuel _ _ _ hl ?_ ?_ c hc2
      · intro q hq
        rcases List.mem_singleton.mp hq with rfl
        exact ⟨List.chain'_singleton _, rfl⟩
      · intro c2 hc3
        cases hc3

theorem check_membership_inv (s : Store) (hacy : ∀ e, ¬ Reach s e e)
    {fb fc : Nat} {st : QState} {e t : Ref} {st2 : QState} {P : List QPath}
    (h : check_membership fb fc st e t = .ok st2 P) (hinv : Inv s st) : Inv s st2 := by
  rw [check_membership] at h
  cases hb : build_graph fb st e with
  | err e2 s2 => rw [hb] at h; dsimp only at h; cases h
  | fuelOut => rw [hb] at h; dsimp only at h; cases h
  | ok st1 r =>
    rw [hb] at h
    dsimp only at h
    have hpost := build_graph_spec s fb st e st1 r hb hinv
    cases hcp : construct_path fc st1 t e with
    | none => rw [hcp] at h; cases h
    | some pr =>
      obtain ⟨stc, ps⟩ := pr
      rw [hcp] at h
      dsimp only at h
      have hspec := construct_path_spec s st1 fc t e stc ps hacy hpost.inv hpost.covered_e
        (fun x hx => hpost.covered_r x ((hpost.mem_iff x).mpr hx)) hcp
      by_cases hne : ps ≠ []
      · rw [if_pos hne] at h
        cases h
        exact inv_pushLog hspec.2.2.1
      · rw [if_neg hne] at h
        cases h
        exact inv_pushLog hspec.2.2.1

theorem qmInner_inv (s : Store) (hacy : ∀ e, ¬ Reach s e e) {fb fc : Nat} {e : Ref} :
    ∀ (ts : List Ref) (st st2 : QState) (u : Unit),
      qmInner fb fc e st ts = .ok st2 u → Inv s st → Inv s st2 := by
  intro ts
  induction ts with
  | nil =>
    intro st st2 u h hinv
    cases h
    exact hinv
  | cons t rest ih =>
    intro st st2 u h hinv
    rw [qmInner] at h
    cases hcm : check_membership fb fc st e t with
    | ok st1 P =>
      rw [hcm] at h
      dsimp only at h
      exact ih st1 st2 u h (check_membership_inv s hacy hcm hinv)
    | err e2 s2 => rw [hcm] at h; dsimp only at h; cases h
    | fuelOut => rw [hcm] at h; dsimp only at h; cases h

theorem qmOuter_inv (s : Store) (hacy : ∀ e, ¬ Reach s e e) {fb fc : Nat} {ts : List Ref} :
    ∀ (ms : List Ref) (st st2 : QState) (u : Unit),
      qmOuter fb fc ts st ms = .ok st2 u → Inv s st → Inv s st2 := by
  intro ms
  induction ms with
  | nil =>
    intro st st2 u h hinv
    cases h
    exact hinv
  | cons e rest ih =>
    intro st st2 u h hinv
    rw [qmOuter] at h
    cases hin : qmInner fb fc e st ts with
    | ok st1 v =>
      rw [hin] at h
      dsimp only at h
      exact ih st1 st2 u h (qmInner_inv s hacy ts st st1 v hin hinv)
    | err e2 s2 => rw [hin] at h; dsimp only at h; cases h
    | fuelOut => rw [hin] at h; dsimp only at h; cases h

theorem query_membership_inv (s : Store) (hacy : ∀ e, ¬ Reach s e e)
    {fb fc : Nat} {st : QState} {ms ts : List (String × String)} {st2 : QState} {u : Unit}
    (h : query_membership fb fc st ms ts = .ok st2 u) (hinv : Inv s st) : Inv s st2 := by
  rw [query_membership] at h
  cases hm : resolve_entities st.entities ms with
  | error er => rw [hm] at h; dsimp only at h; cases h
  | ok mes =>
    rw [hm] at h
    dsimp only at h
    cases ht : resolve_entities st.entities ts with
    | error er => rw [ht] at h; dsimp only at h; cases h
    | ok tes =>
      rw [ht] at h
      dsimp only at h
      exact qmOuter_inv s hacy mes st st2 u h hinv

/-- One successful operation issued by the Query Orchestrator: a graph
build, a membership check, or a whole membership query. -/
inductive OrchStep : QState → QState → Prop where
  | bg (fuel : Nat) (e : Ref) (st st2 : QState) (r : List Ref) :
      build_graph fuel st e = .ok st2 r → OrchStep st st2
  | cm (fb fc : Nat) (e t : Ref) (st st2 : QState) (P : List QPath) :
      check_membership fb fc st e t = .ok st2 P → OrchStep st st2
  | qm (fb fc : Nat) (ms ts : List (String × String)) (st st2 : QState) :
      query_membership fb fc st ms ts = .ok st2 () → OrchStep st st2

/-- An orchestrated session: a finite sequence of successful
orchestrator operations. -/
inductive OrchSteps : QState → QState → Prop where
  | refl (st : QState) : OrchSteps st st
  | tail {st st2 st3 : QState} : OrchSteps st st2 → OrchStep st2 st3 → OrchSteps st st3

theorem orchstep_inv (s : Store) (hacy : ∀ e, ¬ Reach s e e) {st st2 : QState}
    (h : OrchStep st st2) (hinv : Inv s st) : Inv s st2 := by
  cases h with
  | bg fuel e st st2 r heq => exact (build_graph_spec s fuel st e st2 r heq hinv).inv
  | cm fb fc e t st st2 P heq => exact check_membership_inv s hacy heq hinv
  | qm fb fc ms ts st st2 heq => exact query_membership_inv s hacy heq hinv

theorem orchsteps_inv (s : Store) (hacy : ∀ e, ¬ Reach s e e) {st st2 : QState}
    (h : OrchSteps st st2) (hinv : Inv s st) : Inv s st2 := by
  induction h with
  | refl => exact hinv
  | tail hsteps hstep ih => exact orchstep_inv s hacy hstep ih

/-! ### Concrete acyclicity certificates -/

def storeKeys (s : Store) : List Ref := s.map Prod.fst

def resolvedTargets (s : Store) (p : Ref) : List Ref :=
  (targetsOf s p).filterMap fun pr => find_entity s pr.1 pr.2

theorem declEdge_bound {s : Store} {p q : Ref} (h : DeclEdge s p q) :
    p ∈ storeKeys s ∧ q ∈ resolvedTargets s p := by
  obtain ⟨tt, tn, hmem, hfind⟩ := h
  constructor
  · cases halo : alookup s p with
    | none =>
      exfalso
      have htg : targetsOf s p = [] := by
        unfold targetsOf memberOfData
        rw [halo]
        rfl
      rw [htg] at hmem
      cases hmem
    | some rec0 => exact alookup_mem_keys halo
  · exact List.mem_filterMap.mpr ⟨(tt, tn), hmem, hfind⟩

/-- A rank function decreasing along every declared edge certifies that
the member-of relation of a store is acyclic. -/
theorem acyclic_of_rank (s : Store) (rank : Ref → Nat)
    (hrank : ∀ p ∈ storeKeys s, ∀ q ∈ resolvedTargets s p, rank q < rank p) :
    ∀ e, ¬ Reach s e e := by
  have hstep : ∀ a b, Reach s a b → rank b < rank a := by
    intro a b h
    induction h with
    | @direct e t hd =>
      obtain ⟨h1, h2⟩ := declEdge_bound hd
      exact hrank e h1 t h2
    | @step e t x hd hr ihr =>
      obtain ⟨h1, h2⟩ := declEdge_bound hd
      exact lt_trans ihr (hrank e h1 t h2)
  intro e he
  exact lt_irrefl _ (hstep e e he)

theorem qpath_of_len {l : List Ref} (h : 2 ≤ l.length) : ∃ c : QPath, c.toList = l := by
  cases l with
  | nil => simp at h
  | cons a rest => exact ⟨(a, rest), rfl⟩

/-! ### C3, C4, C5, C10 -/

/-- C5: in every state reachable by an orchestrated session over an
acyclic store, every edge recorded in the predecessor index is a
member-of relation actually declared in the predecessor's record, and
consequently every path returned by _construct_path at such a state
consists solely of declared member-of edges and repeats no entity. -/
theorem c5_predecessor_invariant (s : Store) (st : QState)
    (hacy : ∀ e, ¬ Reach s e e)
    (hsess : OrchSteps (initState s) st) :
    (∀ q p, p ∈ predsOf st q → DeclEdge s p q) ∧
    (∀ fuel t m st2 P, construct_path fuel st t m = some (st2, P) →
      ∀ c ∈ P, List.Chain' (DeclEdge s) c.toList ∧ c.toList.Nodup) := by
  have hinv := orchsteps_inv s hacy hsess (inv_initState s)
  refine ⟨hinv.preds_sound, ?_⟩
  intro fuel t m st2 P hcp c hc
  have hmc := construct_path_sound s st fuel t m st2 P hinv hcp c hc
  exact ⟨hmc.1, chain_nodup s hacy c.toList hmc.1⟩

/-- C3: over an acyclic store, in any orchestrated session, once
resolve(member) has been run (build_graph returning the set R), the
paths returned by _construct_path for (member, target) are empty exactly
when the target is not in R — predecessor entries contributed by other
members resolved earlier in the session never produce a spurious path,
and every genuine membership yields at least one path. -/
theorem c3_paths_empty_iff (s : Store) (st st1 st2 : QState) (fb fc : Nat)
    (m t : Ref) (R : List Ref) (P : List QPath)
    (hacy : ∀ e, ¬ Reach s e e)
    (hsess : OrchSteps (initState s) st)
    (hbg : build_graph fb st m = .ok st1 R)
    (hcp : construct_path fc st1 t m = some (st2, P)) :
    P = [] ↔ t ∉ R := by
  have hinv := orchsteps_inv s hacy hsess (inv_initState s)
  have hpost := build_graph_spec s fb st m st1 R hbg hinv
  have hspec := construct_path_spec s st1 fc t m st2 P hacy hpost.inv hpost.covered_e
    (fun x hx => hpost.covered_r x ((hpost.mem_iff x).mpr hx)) hcp
  constructor
  · intro hPnil htR
    obtain ⟨l, hml⟩ := (reach_iff_chain s m t).mp ((hpost.mem_iff t).mp htR)
    obtain ⟨c, hceq⟩ := qpath_of_len hml.2.1
    have hcP : c ∈ P := (hspec.1 c).mpr (by rw [hceq]; exact hml)
    rw [hPnil] at hcP
    cases hcP
  · intro hnt
    cases hP : P with
    | nil => rfl
    | cons c rest =>
      exfalso
      apply hnt
      have hcP : c ∈ P := by rw [hP]; exact List.mem_cons_self _ _
      have hmc := (hspec.1 c).mp hcP
      exact (hpost.mem_iff t).mpr ((reach_iff_chain s m t).mpr ⟨c.toList, hmc⟩)

/-- C4: over an acyclic store, in any orchestrated session, after
resolve(member), _construct_path(target, member) enumerates exactly the
declared member-to-target chains — every distinct simple path, of every
length — and emits them in breadth-first order (path lengths
non-decreasing). -/
theorem c4_enumeration (s : Store) (st st1 st2 : QState) (fb fc : Nat)
    (m t : Ref) (R : List Ref) (P : List QPath)
    (hacy : ∀ e, ¬ Reach s e e)
    (hsess : OrchSteps (initState s) st)
    (hbg : build_graph fb st m = .ok st1 R)
    (hcp : construct_path fc st1 t m = some (st2, P)) :
    (∀ c : QPath, c ∈ P ↔ MemChain s m t c.toList) ∧ LenSorted P := by
  have hinv := orchsteps_inv s hacy hsess (inv_initState s)
  have hpost := build_graph_spec s fb st m st1 R hbg hinv
  have hspec := construct_path_spec s st1 fc t m st2 P hacy hpost.inv hpost.covered_e
    (fun x hx => hpost.covered_r x ((hpost.mem_iff x).mpr hx)) hcp
  exact ⟨hspec.1, hspec.2.1⟩

/-- C10: over an acyclic store, in any orchestrated session state,
querying an entity against itself yields the empty path list: a
completed path from E to E would be a declared-edge cycle through E,
which acyclicity rules out. -/
theorem c10_self_membership (s : Store) (st st2 : QState) (fc : Nat) (e : Ref)
    (P : List QPath)
    (hacy : ∀ e2, ¬ Reach s e2 e2)
    (hsess : OrchSteps (initState s) st)
    (hcp : construct_path fc st e e = some (st2, P)) :
    P = [] := by
  have hinv := orchsteps_inv s hacy hsess (inv_initState s)
  cases hP : P with
  | nil => rfl
  | cons c rest =>
    exfalso
    have hcP : c ∈ P := by rw [hP]; exact List.mem_cons_self _ _
    have hmc := construct_path_sound s st fc e e st2 P hinv hcp c hcP
    exact hacy e ((reach_iff_chain s e e).mpr ⟨c.toList, hmc⟩)

/-! ### Witnesses for C3, C4, C5, C10: the specification's concrete
scenario 2 — u2 member-of g3 and g4, g4 member-of g3. -/

def wU2 : Ref := ⟨"user", "u2"⟩

def wG3 : Ref := ⟨"group", "g3"⟩

def wG4 : Ref := ⟨"group", "g4"⟩

def wStore : Store :=
  [(wU2, ⟨[("group", ["g3", "g4"])]⟩), (wG3, ⟨[]⟩), (wG4, ⟨[("group", ["g3"])]⟩)]

def wRank : Ref → Nat := fun r => if r = wU2 then 2 else if r = wG4 then 1 else 0

theorem wStore_acyclic : ∀ e, ¬ Reach wStore e e :=
  acyclic_of_rank wStore wRank (by decide)

def wSt1 : QState :=
  { entities := wStore,
    graph := [(wG3, []), (wG4, [wG3]), (wU2, [wG3, wG4])],
    predecessors := [(wG3, [wU2, wG4]), (wG4, [wU2])],
    paths := [],
    trace := [.calculating wU2, .calculating wG3, .found wG3 0,
              .calculating wG4, .calculating wG3, .found wG3 0,
              .found wG4 1, .found wU2 2] }

def wPaths : List QPath := [(wU2, [wG3]), (wU2, [wG4, wG3])]

def wSt2 : QState :=
  { wSt1 with paths := [((wU2, wG3), wPaths)],
              trace := wSt1.trace ++ [.foundPaths wU2 wG3 2] }

/-- C3 witness: on the concrete scenario-2 store, resolve(u2) returns
the set containing g3 and g4, the path search for (u2, g3) returns two
paths, and the equivalence of the claim holds at these values. -/
theorem c3_paths_empty_iff_witness :
    wPaths = ([] : List QPath) ↔ wG3 ∉ [wG3, wG4] :=
  c3_paths_empty_iff wStore (initState wStore) wSt1 wSt2 10 10 wU2 wG3
    [wG3, wG4] wPaths wStore_acyclic (OrchSteps.refl _) (by decide) (by decide)

/-- C4 witness: on the scenario-2 store the concrete result is exactly
the direct path [u2, g3] followed by the longer path [u2, g4, g3], and
the general enumeration/ordering theorem applies to it. -/
theorem c4_enumeration_witness :
    construct_path 10 wSt1 wG3 wU2 = some (wSt2, wPaths) ∧
    ((∀ c : QPath, c ∈ wPaths ↔ MemChain wStore wU2 wG3 c.toList) ∧ LenSorted wPaths) :=
  ⟨by decide,
   c4_enumeration wStore (initState wStore) wSt1 wSt2 10 10 wU2 wG3
     [wG3, wG4] wPaths wStore_acyclic (OrchSteps.refl _) (by decide) (by decide)⟩

/-- C5 witness: the invariant theorem applied to the concrete session
that resolved u2 on the scenario-2 store. -/
theorem c5_predecessor_invariant_witness :
    (∀ q p, p ∈ predsOf wSt1 q → DeclEdge wStore p q) ∧
    (∀ fuel t m st2 P, construct_path fuel wSt1 t m = some (st2, P) →
      ∀ c ∈ P, List.Chain' (DeclEdge wStore) c.toList ∧ c.toList.Nodup) :=
  c5_predecessor_invariant wStore wSt1 wStore_acyclic
    (OrchSteps.tail (OrchSteps.refl _)
      (OrchStep.bg 10 wU2 (initState wStore) wSt1 [wG3, wG4] (by decide)))

def wStSelf : QState :=
  { wSt1 with paths := [((wU2, wU2), [])],
              trace := wSt1.trace ++ [.foundPaths wU2 wU2 0] }

/-- C10 witness: querying (u2, u2) — as the cross product does when the
same reference appears in both lists — returns the empty path list on
the scenario-2 store. -/
theorem c10_self_membership_witness : ([] : List QPath) = [] :=
  c10_self_membership wStore wSt1 wStSelf 5 wU2 [] wStore_acyclic
    (OrchSteps.tail (OrchSteps.refl _)
      (OrchStep.bg 10 wU2 (initState wStore) wSt1 [wG3, wG4] (by decide)))
    (by decide)

end FreeipaQuery
